import Mathlib

/-!
Shallow embedding of `pkg/util/tracing/tracingui/span_registry_ui.go`.

Modelling conventions:
* Go `uint64`/`int` identifiers are modelled as `Nat` (no arithmetic is ever
  performed on them, only equality and map lookups, so this is exact).
* Go strings are modelled as Lean `String`; Go's byte-wise operations
  (`sort.Strings`, `v[:8]`) are modelled on the `List Char` representation
  (`goStrLe`, `strTake`), which coincides byte-for-byte on ASCII data.
* Go maps are modelled as association lists with first-match lookup; the Go
  map write `m[k] = v` over previous entries is modelled where it occurs
  (`mkSpansMap` reverses the insertion list so that lookup is last-write-wins).
* The Go pattern of a slice of spans plus maps of *pointers* into it is
  modelled as an arena: the span table is a `List processedSpan` and the maps
  hold indices; mutation through a pointer becomes `modifyIdx` at the index.
* The two partial operations are made total with `Option`:
  - `processTag` returns `none` where the Go code panics (`v[:8]` on a
    value shorter than 8 bytes);
  - the upward `for` loop and the downward recursion carry fuel and return
    `none` when it runs out, which models Go's non-termination: the pipeline
    hands each walk fuel `n + 1` (`n` = number of spans), enough for any
    terminating (hence acyclic, non-repeating) walk.
-/

/-- Byte-order comparison on char lists, mirroring Go's `sort.Strings`
lexicographic byte comparison (identical on ASCII data). -/
def strListLe : List Char → List Char → Bool
  | [], _ => true
  | _ :: _, [] => false
  | a :: as, b :: bs =>
    if a.toNat < b.toNat then true
    else if b.toNat < a.toNat then false
    else strListLe as bs

/-- `goStrLe a b` is Go's `a <= b` on strings (byte order). -/
def goStrLe (a b : String) : Bool := strListLe a.data b.data

/-- Go's `v[:n]` (for `n ≤ len(v)`), modelled at char granularity. -/
def strTake (s : String) (n : Nat) : String := String.mk (s.data.take n)

/-- `tracingpb.RecordedSpan`, restricted to the fields this file reads.
`Tags` is the entry list of the Go `map[string]string` (keys unique in any
well-formed span; the list order models the map's arbitrary iteration order). -/
structure RecordedSpan where
  Operation : String
  TraceID : Nat
  SpanID : Nat
  ParentSpanID : Nat
  StartTime : Nat
  GoroutineID : Nat
  Tags : List (String × String)
deriving Repr, DecidableEq

/-- `tracing.SpansSnapshot`, restricted to the fields this file reads. -/
structure SpansSnapshot where
  Traces : List (List RecordedSpan)
  Stacks : List (Nat × String)
deriving Repr, DecidableEq

/-- `ProcessedTag`. -/
structure ProcessedTag where
  Key : String
  Val : String
  Caption : String
  Link : String
  Hidden : Bool
  Highlight : Bool
  Inherit : Bool
  Inherited : Bool
  PropagateUp : Bool
  CopiedFromChild : Bool
deriving Repr, DecidableEq

/-- `processedSpan`. -/
structure processedSpan where
  Operation : String
  TraceID : Nat
  SpanID : Nat
  ParentSpanID : Nat
  Start : Nat
  GoroutineID : Nat
  Tags : List ProcessedTag
deriving Repr, DecidableEq

/-- `ProcessedSnapshot`. -/
structure ProcessedSnapshot where
  Spans : List processedSpan
  Stacks : List (Nat × String)
deriving Repr, DecidableEq

/-- Go map read `tags[k]`: zero value `""` when the key is absent. -/
def lookupTag (tags : List (String × String)) (k : String) : String :=
  match tags.find? (fun p => p.1 == k) with
  | some p => p.2
  | none => ""

/-- The `hiddenTags` set. -/
def hiddenTags : List String :=
  ["_unfinished", "_verbose", "_dropped", "node", "store"]

/-- `txnState`. -/
structure txnState where
  found : Bool
  curQuery : String
deriving Repr, DecidableEq

/-- The match condition of `findTxnState`'s outer scan:
`s.Operation != "sql txn" || s.Tags["txn"] != txnID` negated. -/
def txnSpanMatches (txnID : String) (s : RecordedSpan) : Bool :=
  s.Operation == "sql txn" && lookupTag s.Tags "txn" == txnID

/-- The inner scan of `findTxnState`: the first `"sql query"` span of the
trace, if any. -/
def findQuerySpan (t : List RecordedSpan) : Option RecordedSpan :=
  t.find? (fun s2 => s2.Operation == "sql query")

/-- One trace's contribution to `findTxnState`: if some span of `t` matches
the transaction, the result is determined by the whole-trace query scan;
otherwise the outer loop moves on (`none`). -/
def findTxnStateInTrace (txnID : String) (t : List RecordedSpan) : Option txnState :=
  if t.any (txnSpanMatches txnID) then
    match findQuerySpan t with
    | some s2 => some { found := true, curQuery := lookupTag s2.Tags "statement" }
    | none => some { found := true, curQuery := "" }
  else none

/-- The outer loop of `findTxnState` over the traces. -/
def findTxnStateList (txnID : String) : List (List RecordedSpan) → txnState
  | [] => { found := false, curQuery := "" }
  | t :: rest =>
    match findTxnStateInTrace txnID t with
    | some st => st
    | none => findTxnStateList txnID rest

/-- `findTxnState`. -/
def findTxnState (txnID : String) (snap : SpansSnapshot) : txnState :=
  findTxnStateList txnID snap.Traces

/-- `processTag`. Returns `none` exactly where the Go code panics: the
unguarded `v[:8]` when `k == "lock_holder_txn"` and `v` is shorter than
8 bytes. -/
def processTag (k v : String) (snap : SpansSnapshot) : Option ProcessedTag :=
  let hidden := hiddenTags.contains k
  if k == "lock_holder_txn" then
    if 8 ≤ v.length then
      let txnIDShort := strTake v 8
      let st := findTxnState v snap
      let caption :=
        if !st.found then "blocked on unknown transaction"
        else if st.curQuery != "" then
          "blocked on txn currently running query: " ++ st.curQuery
        else "blocked on idle txn"
      some { Key := k, Val := txnIDShort, Caption := caption, Link := txnIDShort,
             Hidden := hidden, Highlight := true, Inherit := false,
             Inherited := false, PropagateUp := true, CopiedFromChild := false }
    else none
  else if k == "statement" then
    some { Key := k, Val := v, Caption := "", Link := "", Hidden := hidden,
           Highlight := false, Inherit := true, Inherited := false,
           PropagateUp := true, CopiedFromChild := false }
  else
    some { Key := k, Val := v, Caption := "", Link := "", Hidden := hidden,
           Highlight := false, Inherit := false, Inherited := false,
           PropagateUp := false, CopiedFromChild := false }

/-- The byte-order string relation fed to the sort, as a `Prop` relation. -/
def strLe (a b : String) : Prop := goStrLe a b = true

instance : DecidableRel strLe := fun a b => instDecidableEqBool (goStrLe a b) true

/-- `sort.Strings tagKeys`. -/
def sortStrings (l : List String) : List String := List.insertionSort strLe l

/-- The tag-conversion loop of `processSpan`: `p.Tags[i] = processTag(k, s.Tags[k], snap)`
over the sorted keys, aborting on a panic. -/
def processTagList (ks : List String) (tags : List (String × String))
    (snap : SpansSnapshot) : Option (List ProcessedTag) :=
  match ks with
  | [] => some []
  | k :: rest =>
    match processTag k (lookupTag tags k) snap with
    | none => none
    | some t =>
      match processTagList rest tags snap with
      | none => none
      | some ts => some (t :: ts)

/-- `processSpan`. -/
def processSpan (s : RecordedSpan) (snap : SpansSnapshot) : Option processedSpan :=
  let tagKeys := sortStrings (s.Tags.map Prod.fst)
  match processTagList tagKeys s.Tags snap with
  | none => none
  | some tags =>
    some { Operation := s.Operation, TraceID := s.TraceID, SpanID := s.SpanID,
           ParentSpanID := s.ParentSpanID, Start := s.StartTime,
           GoroutineID := s.GoroutineID, Tags := tags }

/-- Flattening loop of `ProcessSnapshot`: `spans = append(spans, r...)`. -/
def flattenTraces : List (List RecordedSpan) → List RecordedSpan
  | [] => []
  | t :: rest => t ++ flattenTraces rest

/-- The per-span processing loop of `ProcessSnapshot`. -/
def processSpans (spans : List RecordedSpan) (snap : SpansSnapshot) :
    Option (List processedSpan) :=
  match spans with
  | [] => some []
  | s :: rest =>
    match processSpan s snap with
    | none => none
    | some p =>
      match processSpans rest snap with
      | none => none
      | some ps => some (p :: ps)

/-- In-place mutation through an aliasing pointer, in the arena model:
rewrite the element at one index. -/
def modifyIdx {α : Type} (f : α → α) : Nat → List α → List α
  | _, [] => []
  | 0, a :: as => f a :: as
  | n + 1, a :: as => a :: modifyIdx f n as

/-- `p.Tags = append(p.Tags, tag)` through the pointer at index `i`. -/
def appendTagAt (arr : List processedSpan) (i : Nat) (t : ProcessedTag) :
    List processedSpan :=
  modifyIdx (fun q => { q with Tags := q.Tags ++ [t] }) i arr

/-- `spansMap`: span id to arena index; built in span order, so lookup must be
last-write-wins, modelled by reversing before first-match lookup. -/
def mkSpansMap (arr : List processedSpan) : List (Nat × Nat) :=
  (arr.enum.map (fun p => (p.2.SpanID, p.1))).reverse

/-- Go map read `spans[parentID]` (with `ok`). -/
def lookupIdx (m : List (Nat × Nat)) (id : Nat) : Option Nat :=
  match m.find? (fun p => p.1 == id) with
  | some p => some p.2
  | none => none

/-- `childrenMap`: parent id to the arena indices of its children, in span
order; built once from the initial table. -/
def childrenIdxs (arr : List processedSpan) (pid : Nat) : List Nat :=
  (arr.enum.filter (fun p => p.2.ParentSpanID == pid)).map Prod.fst

/-- The copy rewrite at the top of `propagateTagUpwards`:
`tag.CopiedFromChild = true; tag.Inherit = false`. -/
def upCopy (t : ProcessedTag) : ProcessedTag :=
  { t with CopiedFromChild := true, Inherit := false }

/-- The copy rewrite at the top of `propagateInheritTagDownwards`:
`tag.PropagateUp = false; tag.Inherited = true; tag.Hidden = true`. -/
def downCopy (t : ProcessedTag) : ProcessedTag :=
  { t with PropagateUp := false, Inherited := true, Hidden := true }

/-- The unbounded `for` loop of `propagateTagUpwards`, with fuel: one unit per
iteration, `none` on exhaustion (the Go loop has no cycle guard and would not
return). -/
def upLoop (m : List (Nat × Nat)) :
    Nat → ProcessedTag → Nat → List processedSpan → Option (List processedSpan)
  | 0, _, _, _ => none
  | fuel + 1, t, parentID, arr =>
    match lookupIdx m parentID with
    | none => some arr
    | some i =>
      match arr[i]? with
      | none => some arr
      | some p => upLoop m fuel t p.ParentSpanID (appendTagAt arr i t)

/-- `propagateTagUpwards`. -/
def propagateTagUpwards (m : List (Nat × Nat)) (fuel : Nat) (tag : ProcessedTag)
    (sp : processedSpan) (arr : List processedSpan) : Option (List processedSpan) :=
  upLoop m fuel (upCopy tag) sp.ParentSpanID arr

/-- The child loop of `propagateInheritTagDownwards`: append the copy to each
child and recurse into it via `rec` (one level of the Go recursion). Written
with the recursion for the next level abstracted out so that the whole
definition is structural (and hence computes in the kernel). -/
def downList (rec : ProcessedTag → Nat → List processedSpan → Option (List processedSpan)) :
    ProcessedTag → List Nat → List processedSpan → Option (List processedSpan)
  | _, [], arr => some arr
  | t, i :: rest, arr =>
    match arr[i]? with
    | none => downList rec t rest arr
    | some c =>
      match rec t c.SpanID (appendTagAt arr i t) with
      | none => none
      | some arr2 => downList rec t rest arr2

/-- One fueled level of `propagateInheritTagDownwards` from the span with id
`sid`: rewrite the copy, then run the child loop, descending with one unit of
fuel less per level; `none` on exhaustion (the Go recursion has no cycle
guard). -/
def downSubtree (children : Nat → List Nat) :
    Nat → ProcessedTag → Nat → List processedSpan → Option (List processedSpan)
  | 0, _, _, _ => none
  | f + 1, t, sid, arr => downList (downSubtree children f) (downCopy t) (children sid) arr

/-- The body of `propagateInheritTagDownwards` after the copy rewrite: the
child loop where descending into a child spends one unit of fuel. -/
def downStep (children : Nat → List Nat) (fuel : Nat) (t : ProcessedTag)
    (l : List Nat) (arr : List processedSpan) : Option (List processedSpan) :=
  downList (downSubtree children fuel) t l arr

/-- `propagateInheritTagDownwards`. -/
def propagateInheritTagDownwards (children : Nat → List Nat) (fuel : Nat)
    (tag : ProcessedTag) (sp : processedSpan) (arr : List processedSpan) :
    Option (List processedSpan) :=
  match fuel with
  | 0 => none
  | f + 1 => downStep children f (downCopy tag) (children sp.SpanID) arr

/-- The inner tag loop of the upward pass:
`if !t.PropagateUp || t.CopiedFromChild { continue }`. -/
def upSpanTags (m : List (Nat × Nat)) (fuel : Nat) (sp : processedSpan) :
    List ProcessedTag → List processedSpan → Option (List processedSpan)
  | [], arr => some arr
  | t :: ts, arr =>
    if !t.PropagateUp || t.CopiedFromChild then upSpanTags m fuel sp ts arr
    else
      match propagateTagUpwards m fuel t sp arr with
      | none => none
      | some arr' => upSpanTags m fuel sp ts arr'

/-- The outer span loop of the upward pass: the loop variable is a copy of the
current table entry, taken at the start of the iteration. -/
def upwardPassFrom (m : List (Nat × Nat)) (fuel : Nat) :
    Nat → Nat → List processedSpan → Option (List processedSpan)
  | _, 0, arr => some arr
  | i, steps + 1, arr =>
    match arr[i]? with
    | none => some arr
    | some s =>
      match upSpanTags m fuel s s.Tags arr with
      | none => none
      | some arr' => upwardPassFrom m fuel (i + 1) steps arr'

/-- The whole upward pass. -/
def upwardPass (m : List (Nat × Nat)) (fuel : Nat) (arr : List processedSpan) :
    Option (List processedSpan) :=
  upwardPassFrom m fuel 0 arr.length arr

/-- The inner tag loop of the downward pass:
`if !t.Inherit || t.Inherited { continue }`. -/
def downSpanTags (children : Nat → List Nat) (fuel : Nat) (sp : processedSpan) :
    List ProcessedTag → List processedSpan → Option (List processedSpan)
  | [], arr => some arr
  | t :: ts, arr =>
    if !t.Inherit || t.Inherited then downSpanTags children fuel sp ts arr
    else
      match propagateInheritTagDownwards children fuel t sp arr with
      | none => none
      | some arr' => downSpanTags children fuel sp ts arr'

/-- The outer span loop of the downward pass. -/
def downwardPassFrom (children : Nat → List Nat) (fuel : Nat) :
    Nat → Nat → List processedSpan → Option (List processedSpan)
  | _, 0, arr => some arr
  | i, steps + 1, arr =>
    match arr[i]? with
    | none => some arr
    | some s =>
      match downSpanTags children fuel s s.Tags arr with
      | none => none
      | some arr' => downwardPassFrom children fuel (i + 1) steps arr'

/-- The whole downward pass. -/
def downwardPass (children : Nat → List Nat) (fuel : Nat)
    (arr : List processedSpan) : Option (List processedSpan) :=
  downwardPassFrom children fuel 0 arr.length arr

/-- The placeholder stack message. -/
def goroutineStackMsg : String :=
  "Goroutine not found. Goroutine must have finished since the span was created."

/-- Go map read `stacks[gid]` (with `ok`). -/
def lookupStack (m : List (Nat × String)) (k : Nat) : Option String :=
  match m.find? (fun p => p.1 == k) with
  | some p => some p.2
  | none => none

/-- The stack-stitching loop of `ProcessSnapshot`: for each span, insert the
placeholder for its goroutine id unless the map already has an entry. -/
def addMissingStacks (stks : List (Nat × String)) :
    List RecordedSpan → List (Nat × String)
  | [] => stks
  | s :: rest =>
    match lookupStack stks s.GoroutineID with
    | some _ => addMissingStacks stks rest
    | none => addMissingStacks (stks ++ [(s.GoroutineID, goroutineStackMsg)]) rest

/-- `ProcessSnapshot`. `none` models the two ways the Go function fails to
return: a panic in `processTag`, or an infinite walk in either propagation
pass (fuel `n + 1` is exhausted only by a walk that revisits a span, which
in Go repeats forever). -/
def ProcessSnapshot (snapshot : SpansSnapshot) : Option ProcessedSnapshot :=
  let spans := flattenTraces snapshot.Traces
  match processSpans spans snapshot with
  | none => none
  | some ps =>
    let m := mkSpansMap ps
    let children := childrenIdxs ps
    let fuel := ps.length + 1
    match upwardPass m fuel ps with
    | none => none
    | some arr1 =>
      match downwardPass children fuel arr1 with
      | none => none
      | some arr2 =>
        some { Spans := arr2, Stacks := addMissingStacks snapshot.Stacks spans }

/-- Decidable check that a tag list is sorted by key ascending (byte order). -/
def tagsSortedByKey : List ProcessedTag → Bool
  | [] => true
  | [_] => true
  | t1 :: t2 :: rest => goStrLe t1.Key t2.Key && tagsSortedByKey (t2 :: rest)

/-! ## Basic lemmas about the arena primitives -/

theorem modifyIdx_length {α : Type} (f : α → α) (n : Nat) (l : List α) :
    (modifyIdx f n l).length = l.length := by
  induction l generalizing n with
  | nil => cases n <;> rfl
  | cons a as ih =>
    cases n with
    | zero => rfl
    | succ k => simpa [modifyIdx] using ih k

theorem get?_modifyIdx {α : Type} (f : α → α) (n : Nat) (l : List α) (j : Nat) :
    (modifyIdx f n l)[j]? = if j = n then (l[j]?).map f else l[j]? := by
  induction l generalizing n j with
  | nil => simp [modifyIdx]
  | cons a as ih =>
    cases n with
    | zero =>
      cases j with
      | zero => simp [modifyIdx]
      | succ j' => simp [modifyIdx]
    | succ k =>
      cases j with
      | zero => simp [modifyIdx]
      | succ j' =>
        simp only [modifyIdx, List.getElem?_cons_succ]
        rw [ih k j']
        by_cases h : j' = k <;> simp [h]

theorem appendTagAt_length (arr : List processedSpan) (i : Nat) (t : ProcessedTag) :
    (appendTagAt arr i t).length = arr.length := modifyIdx_length _ _ _

theorem get?_appendTagAt (arr : List processedSpan) (i : Nat) (t : ProcessedTag) (j : Nat) :
    (appendTagAt arr i t)[j]? =
      if j = i then (arr[j]?).map (fun q => { q with Tags := q.Tags ++ [t] })
      else arr[j]? := get?_modifyIdx _ _ _ _

/-- Appending one copy at every index of `ch`, in order (the cumulative effect
of an up walk, or of a down walk's visit sequence). -/
def appendAlong (ch : List Nat) (t : ProcessedTag) (arr : List processedSpan) :
    List processedSpan :=
  match ch with
  | [] => arr
  | i :: rest => appendAlong rest t (appendTagAt arr i t)

theorem appendAlong_length (ch : List Nat) (t : ProcessedTag) (arr : List processedSpan) :
    (appendAlong ch t arr).length = arr.length := by
  induction ch generalizing arr with
  | nil => rfl
  | cons i rest ih => simp [appendAlong, ih, appendTagAt_length]

theorem get?_appendAlong (ch : List Nat) (t : ProcessedTag) (arr : List processedSpan)
    (j : Nat) :
    (appendAlong ch t arr)[j]? =
      (arr[j]?).map (fun q => { q with Tags := q.Tags ++ List.replicate (ch.count j) t }) := by
  induction ch generalizing arr with
  | nil =>
    simp only [appendAlong, List.count_nil, List.replicate_zero, List.append_nil]
    cases arr[j]? <;> simp
  | cons i rest ih =>
    simp only [appendAlong]
    rw [ih, get?_appendTagAt]
    by_cases h : j = i
    · subst h
      rw [if_pos rfl, List.count_cons_self]
      cases arr[j]? with
      | none => rfl
      | some q =>
        simp only [Option.map_some', Option.some.injEq]
        have : q.Tags ++ [t] ++ List.replicate (rest.count j) t =
            q.Tags ++ List.replicate (rest.count j + 1) t := by
          rw [List.append_assoc]
          congr 1
        rw [this]
    · rw [if_neg h, List.count_cons_of_ne h]

/-! ## Tag-extension relations between arena states

A pass only ever appends tags to spans; `TagsExtendP ok arr arr2` says `arr2`
is `arr` with, at each index, some appended tags all satisfying `ok`.
Identity fields are untouched by construction. -/

def TagsExtendP (ok : ProcessedTag → Bool) (arr arr2 : List processedSpan) : Prop :=
  ∀ j : Nat, ∃ e, arr2[j]? =
      (arr[j]?).map (fun s : processedSpan => { s with Tags := s.Tags ++ e }) ∧
    ∀ t ∈ e, ok t = true

theorem tagsExtendP_refl (ok : ProcessedTag → Bool) (arr : List processedSpan) :
    TagsExtendP ok arr arr := by
  intro j
  refine ⟨[], ?_, by simp⟩
  cases arr[j]? <;> simp

theorem tagsExtendP_trans {ok : ProcessedTag → Bool} {a b c : List processedSpan}
    (h1 : TagsExtendP ok a b) (h2 : TagsExtendP ok b c) : TagsExtendP ok a c := by
  intro j
  obtain ⟨e1, hb, he1⟩ := h1 j
  obtain ⟨e2, hc, he2⟩ := h2 j
  refine ⟨e1 ++ e2, ?_, ?_⟩
  · rw [hc, hb]
    cases a[j]? <;> simp
  · intro t ht
    rcases List.mem_append.mp ht with h | h
    · exact he1 t h
    · exact he2 t h

theorem tagsExtendP_appendTagAt {ok : ProcessedTag → Bool} {t : ProcessedTag}
    (hok : ok t = true) (arr : List processedSpan) (i : Nat) :
    TagsExtendP ok arr (appendTagAt arr i t) := by
  intro j
  rw [get?_appendTagAt]
  by_cases h : j = i
  · exact ⟨[t], by rw [if_pos h], by simpa using hok⟩
  · refine ⟨[], by rw [if_neg h]; cases arr[j]? <;> simp, by simp⟩

theorem tagsExtendP_appendAlong {ok : ProcessedTag → Bool} {t : ProcessedTag}
    (hok : ok t = true) (ch : List Nat) (arr : List processedSpan) :
    TagsExtendP ok arr (appendAlong ch t arr) := by
  intro j
  rw [get?_appendAlong]
  exact ⟨List.replicate (ch.count j) t, rfl, by
    intro x hx
    rw [List.eq_of_mem_replicate hx]
    exact hok⟩

theorem tagsExtendP_mono {ok1 ok2 : ProcessedTag → Bool}
    (h : ∀ t, ok1 t = true → ok2 t = true) {a b : List processedSpan}
    (hab : TagsExtendP ok1 a b) : TagsExtendP ok2 a b := by
  intro j
  obtain ⟨e, he, hok⟩ := hab j
  exact ⟨e, he, fun t ht => h t (hok t ht)⟩

/-! ## The ancestor chain of the upward walk, as a pure function -/

/-- The sequence of arena indices the `propagateTagUpwards` loop visits,
starting from parent id `pid`: stop (`some`) at the first id absent from the
span index; `none` when the fuel is exhausted, i.e. the Go loop would still be
running. Only identity fields of `base` are read. -/
def chainIdxs (m : List (Nat × Nat)) (base : List processedSpan) :
    Nat → Nat → Option (List Nat)
  | 0, _ => none
  | fuel + 1, pid =>
    match lookupIdx m pid with
    | none => some []
    | some i =>
      match base[i]? with
      | none => some []
      | some p => (chainIdxs m base fuel p.ParentSpanID).map (fun ch => i :: ch)


theorem chainIdxs_zero (m : List (Nat × Nat)) (base : List processedSpan) (pid : Nat) :
    chainIdxs m base 0 pid = none := rfl

theorem chainIdxs_succ_stop {m : List (Nat × Nat)} {pid : Nat}
    (base : List processedSpan) (f : Nat) (h : lookupIdx m pid = none) :
    chainIdxs m base (f + 1) pid = some [] := by
  simp [chainIdxs, h]

theorem chainIdxs_succ_dangling {m : List (Nat × Nat)} {pid i : Nat}
    {base : List processedSpan} (f : Nat)
    (h1 : lookupIdx m pid = some i) (h2 : base[i]? = none) :
    chainIdxs m base (f + 1) pid = some [] := by
  simp [chainIdxs, h1, h2]

theorem chainIdxs_succ_step {m : List (Nat × Nat)} {pid i : Nat}
    {base : List processedSpan} {p : processedSpan} (f : Nat)
    (h1 : lookupIdx m pid = some i) (h2 : base[i]? = some p) :
    chainIdxs m base (f + 1) pid =
      (chainIdxs m base f p.ParentSpanID).map (fun ch => i :: ch) := by
  simp [chainIdxs, h1, h2]

theorem upLoop_zero (m : List (Nat × Nat)) (t : ProcessedTag) (pid : Nat)
    (arr : List processedSpan) : upLoop m 0 t pid arr = none := rfl

theorem upLoop_succ_stop {m : List (Nat × Nat)} {pid : Nat} (f : Nat)
    (t : ProcessedTag) (arr : List processedSpan) (h : lookupIdx m pid = none) :
    upLoop m (f + 1) t pid arr = some arr := by
  simp [upLoop, h]

theorem upLoop_succ_dangling {m : List (Nat × Nat)} {pid i : Nat}
    {arr : List processedSpan} (f : Nat) (t : ProcessedTag)
    (h1 : lookupIdx m pid = some i) (h2 : arr[i]? = none) :
    upLoop m (f + 1) t pid arr = some arr := by
  simp [upLoop, h1, h2]

theorem upLoop_succ_step {m : List (Nat × Nat)} {pid i : Nat}
    {arr : List processedSpan} {p : processedSpan} (f : Nat) (t : ProcessedTag)
    (h1 : lookupIdx m pid = some i) (h2 : arr[i]? = some p) :
    upLoop m (f + 1) t pid arr = upLoop m f t p.ParentSpanID (appendTagAt arr i t) := by
  simp [upLoop, h1, h2]

theorem chainIdxs_ext {ok : ProcessedTag → Bool} {arr arr2 : List processedSpan}
    (hext : TagsExtendP ok arr arr2) (m : List (Nat × Nat)) (f : Nat) (pid : Nat) :
    chainIdxs m arr2 f pid = chainIdxs m arr f pid := by
  induction f generalizing pid with
  | zero => rfl
  | succ f ih =>
    cases hm : lookupIdx m pid with
    | none => rw [chainIdxs_succ_stop arr2 f hm, chainIdxs_succ_stop arr f hm]
    | some i =>
      obtain ⟨e, he, -⟩ := hext i
      cases harr : arr[i]? with
      | none =>
        have harr2 : arr2[i]? = none := by rw [he, harr]; rfl
        rw [chainIdxs_succ_dangling f hm harr2, chainIdxs_succ_dangling f hm harr]
      | some p =>
        have harr2 : arr2[i]? = some { p with Tags := p.Tags ++ e } := by
          rw [he, harr]; rfl
        rw [chainIdxs_succ_step f hm harr2, chainIdxs_succ_step f hm harr]
        rw [ih p.ParentSpanID]

theorem upLoop_char (m : List (Nat × Nat)) (f : Nat) (t : ProcessedTag) (pid : Nat)
    (arr : List processedSpan) :
    upLoop m f t pid arr = (chainIdxs m arr f pid).map (fun ch => appendAlong ch t arr) := by
  induction f generalizing pid arr with
  | zero => rfl
  | succ f ih =>
    cases hm : lookupIdx m pid with
    | none => rw [upLoop_succ_stop f t arr hm, chainIdxs_succ_stop arr f hm]; rfl
    | some i =>
      cases harr : arr[i]? with
      | none =>
        rw [upLoop_succ_dangling f t hm harr, chainIdxs_succ_dangling f hm harr]
        rfl
      | some p =>
        rw [upLoop_succ_step f t hm harr, chainIdxs_succ_step f hm harr]
        rw [ih p.ParentSpanID (appendTagAt arr i t)]
        rw [chainIdxs_ext (@tagsExtendP_appendTagAt (fun _ => true) t rfl arr i)]
        cases chainIdxs m arr f p.ParentSpanID <;> rfl

theorem chainIdxs_mono {m : List (Nat × Nat)} {base : List processedSpan}
    {f : Nat} {pid : Nat} {ch : List Nat}
    (h : chainIdxs m base f pid = some ch) :
    ∀ g, f ≤ g → chainIdxs m base g pid = some ch := by
  induction f generalizing pid ch with
  | zero => exact absurd h (by simp [chainIdxs])
  | succ f ih =>
    intro g hg
    obtain ⟨g', rfl⟩ : ∃ g', g = g' + 1 := ⟨g - 1, by omega⟩
    cases hm : lookupIdx m pid with
    | none =>
      rw [chainIdxs_succ_stop base f hm] at h
      rw [chainIdxs_succ_stop base g' hm]
      exact h
    | some i =>
      cases harr : base[i]? with
      | none =>
        rw [chainIdxs_succ_dangling f hm harr] at h
        rw [chainIdxs_succ_dangling g' hm harr]
        exact h
      | some p =>
        rw [chainIdxs_succ_step f hm harr] at h
        rw [chainIdxs_succ_step g' hm harr]
        simp only [Option.map_eq_some'] at h
        obtain ⟨ch', hch', rfl⟩ := h
        rw [ih hch' g' (by omega)]
        rfl

theorem chainIdxs_det {m : List (Nat × Nat)} {base : List processedSpan}
    {f g : Nat} {pid : Nat} {ch ch' : List Nat}
    (h1 : chainIdxs m base f pid = some ch) (h2 : chainIdxs m base g pid = some ch') :
    ch = ch' := by
  rcases Nat.le_total f g with hle | hle
  · have h3 := chainIdxs_mono h1 g hle
    rw [h3] at h2
    exact Option.some.inj h2
  · have h3 := chainIdxs_mono h2 f hle
    rw [h3] at h1
    exact (Option.some.inj h1).symm

theorem chainIdxs_suffix {m : List (Nat × Nat)} {base : List processedSpan} :
    ∀ {f : Nat} {pid : Nat} {ch : List Nat},
    chainIdxs m base f pid = some ch →
    ∀ pre i suf, ch = pre ++ i :: suf →
    ∃ f' p, f' < f ∧ base[i]? = some p ∧
      chainIdxs m base f' p.ParentSpanID = some suf := by
  intro f
  induction f with
  | zero => intro pid ch h; exact absurd h (by simp [chainIdxs])
  | succ f ih =>
    intro pid ch h pre i suf hdec
    cases hm : lookupIdx m pid with
    | none =>
      rw [chainIdxs_succ_stop base f hm] at h
      obtain rfl := (Option.some.inj h).symm
      exact absurd hdec (by simp)
    | some i0 =>
      cases harr : base[i0]? with
      | none =>
        rw [chainIdxs_succ_dangling f hm harr] at h
        obtain rfl := (Option.some.inj h).symm
        exact absurd hdec (by simp)
      | some p =>
        rw [chainIdxs_succ_step f hm harr] at h
        simp only [Option.map_eq_some'] at h
        obtain ⟨ch', hch', rfl⟩ := h
        cases pre with
        | nil =>
          simp only [List.nil_append, List.cons.injEq] at hdec
          obtain ⟨rfl, rfl⟩ := hdec
          exact ⟨f, p, Nat.lt_succ_self f, harr, hch'⟩
        | cons a pre' =>
          simp only [List.cons_append, List.cons.injEq] at hdec
          obtain ⟨rfl, hdec'⟩ := hdec
          obtain ⟨f', p', hf', hp', hc'⟩ := ih hch' pre' i suf hdec'
          exact ⟨f', p', Nat.lt_succ_of_lt hf', hp', hc'⟩

theorem chainIdxs_nodup {m : List (Nat × Nat)} {base : List processedSpan} :
    ∀ {f : Nat} {pid : Nat} {ch : List Nat},
    chainIdxs m base f pid = some ch → ch.Nodup := by
  intro f
  induction f with
  | zero => intro pid ch h; exact absurd h (by simp [chainIdxs])
  | succ f ih =>
    intro pid ch h
    cases hm : lookupIdx m pid with
    | none =>
      rw [chainIdxs_succ_stop base f hm] at h
      obtain rfl := (Option.some.inj h).symm
      exact List.nodup_nil
    | some i =>
      cases harr : base[i]? with
      | none =>
        rw [chainIdxs_succ_dangling f hm harr] at h
        obtain rfl := (Option.some.inj h).symm
        exact List.nodup_nil
      | some p =>
        rw [chainIdxs_succ_step f hm harr] at h
        simp only [Option.map_eq_some'] at h
        obtain ⟨ch', hch', rfl⟩ := h
        refine List.nodup_cons.mpr ⟨?_, ih hch'⟩
        intro hmem
        obtain ⟨c1, c2, rfl⟩ := List.append_of_mem hmem
        obtain ⟨f2, p2, _, hp2, hc2⟩ := chainIdxs_suffix hch' c1 i c2 rfl
        rw [harr] at hp2
        obtain rfl := Option.some.inj hp2
        have hdet := chainIdxs_det hch' hc2
        have hlen : (c1 ++ i :: c2).length = c2.length := by rw [hdet]
        simp only [List.length_append, List.length_cons] at hlen
        omega

theorem chainIdxs_not_mem_start {m : List (Nat × Nat)} {base : List processedSpan}
    {f : Nat} {i : Nat} {p : processedSpan} {ch : List Nat}
    (hp : base[i]? = some p)
    (h : chainIdxs m base f p.ParentSpanID = some ch) : i ∉ ch := by
  intro hmem
  obtain ⟨c1, c2, rfl⟩ := List.append_of_mem hmem
  obtain ⟨f2, p2, _, hp2, hc2⟩ := chainIdxs_suffix h c1 i c2 rfl
  rw [hp] at hp2
  obtain rfl := Option.some.inj hp2
  have hdet := chainIdxs_det h hc2
  have hlen : (c1 ++ i :: c2).length = c2.length := by rw [hdet]
  simp only [List.length_append, List.length_cons] at hlen
  omega

theorem chainIdxs_mem_valid {m : List (Nat × Nat)} {base : List processedSpan}
    {f : Nat} {pid : Nat} {ch : List Nat}
    (h : chainIdxs m base f pid = some ch) {j : Nat} (hj : j ∈ ch) :
    ∃ p, base[j]? = some p := by
  obtain ⟨c1, c2, rfl⟩ := List.append_of_mem hj
  obtain ⟨f2, p2, _, hp2, _⟩ := chainIdxs_suffix h c1 j c2 rfl
  exact ⟨p2, hp2⟩

/-! ## Characterizing the upward pass -/

/-- The tags of a span eligible to start an upward walk: originals with
`PropagateUp` set (the loop skips `!t.PropagateUp || t.CopiedFromChild`). -/
def eligUpTags (ts : List ProcessedTag) : List ProcessedTag :=
  ts.filter (fun t => t.PropagateUp && !t.CopiedFromChild)

/-- `n` upward copies of each of `ts`, in tag order (the tags a span receives
from one visited span whose chain passes `n` times through it). -/
def copiesForUp (ts : List ProcessedTag) (n : Nat) : List ProcessedTag :=
  match ts with
  | [] => []
  | t :: rest => List.replicate n (upCopy t) ++ copiesForUp rest n

/-- How often the chain starting at `pid` passes through index `j` (0 when the
walk would not terminate). -/
def chCount (m : List (Nat × Nat)) (base : List processedSpan)
    (fuel pid j : Nat) : Nat :=
  match chainIdxs m base fuel pid with
  | none => 0
  | some ch => ch.count j

/-- The tags index `j` receives during the upward pass from the spans at
indices `i, i+1, …, i+steps-1`. -/
def upContribFrom (m : List (Nat × Nat)) (base : List processedSpan) (fuel : Nat) :
    Nat → Nat → Nat → List ProcessedTag
  | _, 0, _ => []
  | i, steps + 1, j =>
    (match base[i]? with
     | none => []
     | some s => copiesForUp (eligUpTags s.Tags) (chCount m base fuel s.ParentSpanID j))
    ++ upContribFrom m base fuel (i + 1) steps j

theorem mem_copiesForUp {ts : List ProcessedTag} {n : Nat} {t' : ProcessedTag}
    (h : t' ∈ copiesForUp ts n) : ∃ t ∈ ts, t' = upCopy t := by
  induction ts with
  | nil => exact absurd h (by simp [copiesForUp])
  | cons t rest ih =>
    rcases List.mem_append.mp h with h1 | h2
    · exact ⟨t, List.mem_cons_self t rest, List.eq_of_mem_replicate h1⟩
    · obtain ⟨t0, ht0, rfl⟩ := ih h2
      exact ⟨t0, List.mem_cons_of_mem t ht0, rfl⟩

theorem upCopy_CopiedFromChild (t : ProcessedTag) : (upCopy t).CopiedFromChild = true := rfl

theorem upCopy_Inherit (t : ProcessedTag) : (upCopy t).Inherit = false := rfl

theorem eligUpTags_append_of_none {ts e : List ProcessedTag}
    (he : ∀ t ∈ e, (t.PropagateUp && !t.CopiedFromChild) = false) :
    eligUpTags (ts ++ e) = eligUpTags ts := by
  unfold eligUpTags
  rw [List.filter_append]
  have hnil : List.filter (fun t => t.PropagateUp && !t.CopiedFromChild) e = [] := by
    rw [List.filter_eq_nil_iff]
    intro a ha
    rw [he a ha]
    simp
  rw [hnil, List.append_nil]

theorem map_extend_extend (o : Option processedSpan) (a b : List ProcessedTag) :
    (o.map (fun s : processedSpan => { s with Tags := s.Tags ++ a })).map
        (fun s : processedSpan => { s with Tags := s.Tags ++ b }) =
      o.map (fun s : processedSpan => { s with Tags := s.Tags ++ (a ++ b) }) := by
  cases o <;> simp

theorem map_extend_nil (o : Option processedSpan) :
    o.map (fun s : processedSpan => { s with Tags := s.Tags ++ [] }) = o := by
  cases o <;> simp

theorem upSpanTags_char (m : List (Nat × Nat)) (fuel : Nat) (sp : processedSpan) :
    ∀ (ts : List ProcessedTag) (arr arr' : List processedSpan),
    upSpanTags m fuel sp ts arr = some arr' →
    ∀ j, arr'[j]? = (arr[j]?).map (fun s : processedSpan =>
      { s with Tags := s.Tags ++
          copiesForUp (eligUpTags ts) (chCount m arr fuel sp.ParentSpanID j) }) := by
  intro ts
  induction ts with
  | nil =>
    intro arr arr' h j
    obtain rfl := Option.some.inj h
    exact (map_extend_nil (arr[j]?)).symm
  | cons t rest ih =>
    intro arr arr' h j
    by_cases hc : (!t.PropagateUp || t.CopiedFromChild) = true
    · rw [show upSpanTags m fuel sp (t :: rest) arr =
          if !t.PropagateUp || t.CopiedFromChild then upSpanTags m fuel sp rest arr
          else match propagateTagUpwards m fuel t sp arr with
            | none => none
            | some arr' => upSpanTags m fuel sp rest arr' from rfl, if_pos hc] at h
      have hcond : (t.PropagateUp && !t.CopiedFromChild) = false := by
        cases hp : t.PropagateUp <;> cases hq : t.CopiedFromChild <;> simp_all
      have helig : eligUpTags (t :: rest) = eligUpTags rest := by
        unfold eligUpTags
        rw [List.filter_cons_of_neg (by simp [hcond])]
      rw [helig]
      exact ih arr arr' h j
    · rw [show upSpanTags m fuel sp (t :: rest) arr =
          if !t.PropagateUp || t.CopiedFromChild then upSpanTags m fuel sp rest arr
          else match propagateTagUpwards m fuel t sp arr with
            | none => none
            | some arr' => upSpanTags m fuel sp rest arr' from rfl, if_neg hc] at h
      have hcond : (t.PropagateUp && !t.CopiedFromChild) = true := by
        cases hp : t.PropagateUp <;> cases hq : t.CopiedFromChild <;> simp_all
      have helig : eligUpTags (t :: rest) = t :: eligUpTags rest := by
        unfold eligUpTags
        rw [List.filter_cons_of_pos (by simp [hcond])]
      unfold propagateTagUpwards at h
      rw [upLoop_char] at h
      cases hch : chainIdxs m arr fuel sp.ParentSpanID with
      | none => rw [hch] at h; exact absurd h (by simp)
      | some ch =>
        rw [hch] at h
        simp only [Option.map_some'] at h
        have hext : TagsExtendP (fun _ => true) arr (appendAlong ch (upCopy t) arr) :=
          tagsExtendP_appendAlong rfl ch arr
        have ihj := ih (appendAlong ch (upCopy t) arr) arr' h j
        rw [get?_appendAlong] at ihj
        rw [show chCount m (appendAlong ch (upCopy t) arr) fuel sp.ParentSpanID j
            = chCount m arr fuel sp.ParentSpanID j from by
          unfold chCount
          rw [chainIdxs_ext hext]] at ihj
        rw [ihj, map_extend_extend, helig]
        unfold chCount
        rw [hch]
        rfl

theorem upContribFrom_mem {m : List (Nat × Nat)} {base : List processedSpan}
    {fuel : Nat} :
    ∀ {steps i j : Nat} {t : ProcessedTag},
    t ∈ upContribFrom m base fuel i steps j → t.CopiedFromChild = true := by
  intro steps
  induction steps with
  | zero => intro i j t h; exact absurd h (by simp [upContribFrom])
  | succ steps ih =>
    intro i j t h
    simp only [upContribFrom] at h
    rcases List.mem_append.mp h with h1 | h2
    · cases hi : base[i]? with
      | none => rw [hi] at h1; exact absurd h1 (by simp)
      | some s =>
        rw [hi] at h1
        obtain ⟨t0, -, rfl⟩ := mem_copiesForUp h1
        rfl
    · exact ih h2

theorem upSpanTags_extends {m : List (Nat × Nat)} {fuel : Nat} {sp : processedSpan}
    {ts : List ProcessedTag} {arr arr' : List processedSpan}
    (h : upSpanTags m fuel sp ts arr = some arr') :
    TagsExtendP (fun t => t.CopiedFromChild) arr arr' := by
  intro j
  refine ⟨copiesForUp (eligUpTags ts) (chCount m arr fuel sp.ParentSpanID j),
    upSpanTags_char m fuel sp ts arr arr' h j, ?_⟩
  intro t ht
  obtain ⟨t0, -, rfl⟩ := mem_copiesForUp ht
  rfl

theorem upContribFrom_ext {ok : ProcessedTag → Bool}
    (hok : ∀ t, ok t = true → (t.PropagateUp && !t.CopiedFromChild) = false)
    {arr arr2 : List processedSpan} (hext : TagsExtendP ok arr arr2)
    (m : List (Nat × Nat)) (fuel : Nat) :
    ∀ (steps i j : Nat),
    upContribFrom m arr2 fuel i steps j = upContribFrom m arr fuel i steps j := by
  intro steps
  induction steps with
  | zero => intro i j; rfl
  | succ steps ih =>
    intro i j
    simp only [upContribFrom]
    rw [ih (i + 1) j]
    congr 1
    obtain ⟨e, he, hoke⟩ := hext i
    cases hi : arr[i]? with
    | none =>
      have hi2 : arr2[i]? = none := by rw [he, hi]; rfl
      rw [hi2]
    | some s =>
      have hi2 : arr2[i]? = some { s with Tags := s.Tags ++ e } := by rw [he, hi]; rfl
      rw [hi2]
      have helig : eligUpTags (s.Tags ++ e) = eligUpTags s.Tags :=
        eligUpTags_append_of_none (fun t ht => hok t (hoke t ht))
      show copiesForUp (eligUpTags (s.Tags ++ e)) (chCount m arr2 fuel s.ParentSpanID j) =
        copiesForUp (eligUpTags s.Tags) (chCount m arr fuel s.ParentSpanID j)
      rw [helig]
      unfold chCount
      rw [chainIdxs_ext hext]

theorem getElem?_eq_none_of_le {α : Type} {l : List α} {i j : Nat}
    (h : l[i]? = none) (hij : i ≤ j) : l[j]? = none := by
  rw [List.getElem?_eq_none_iff] at h ⊢
  omega

theorem upContribFrom_overflow {m : List (Nat × Nat)} {base : List processedSpan}
    {fuel : Nat} :
    ∀ (steps i j : Nat), base[i]? = none → upContribFrom m base fuel i steps j = [] := by
  intro steps
  induction steps with
  | zero => intro i j _; rfl
  | succ steps ih =>
    intro i j hi
    simp only [upContribFrom]
    rw [hi, ih (i + 1) j (getElem?_eq_none_of_le hi (Nat.le_succ i)), List.append_nil]

theorem upwardPassFrom_char (m : List (Nat × Nat)) (fuel : Nat) :
    ∀ (steps i : Nat) (arr arr' : List processedSpan),
    upwardPassFrom m fuel i steps arr = some arr' →
    ∀ j, arr'[j]? = (arr[j]?).map (fun s : processedSpan =>
      { s with Tags := s.Tags ++ upContribFrom m arr fuel i steps j }) := by
  intro steps
  induction steps with
  | zero =>
    intro i arr arr' h j
    obtain rfl := Option.some.inj h
    exact (map_extend_nil (arr[j]?)).symm
  | succ steps ih =>
    intro i arr arr' h j
    rw [show upwardPassFrom m fuel i (steps + 1) arr =
        match arr[i]? with
        | none => some arr
        | some s =>
          match upSpanTags m fuel s s.Tags arr with
          | none => none
          | some arr2 => upwardPassFrom m fuel (i + 1) steps arr2 from rfl] at h
    cases hi : arr[i]? with
    | none =>
      rw [hi] at h
      obtain rfl := Option.some.inj h
      have hc : upContribFrom m arr fuel i (steps + 1) j = [] := by
        simp only [upContribFrom]
        rw [hi, upContribFrom_overflow steps (i + 1) j
          (getElem?_eq_none_of_le hi (Nat.le_succ i))]
        rfl
      rw [hc, map_extend_nil]
    | some s =>
      rw [hi] at h
      have h2 : (match upSpanTags m fuel s s.Tags arr with
          | none => none
          | some arr2 => upwardPassFrom m fuel (i + 1) steps arr2) = some arr' := h
      cases hu : upSpanTags m fuel s s.Tags arr with
      | none => rw [hu] at h2; exact absurd h2 (by simp)
      | some arr1 =>
        rw [hu] at h2
        have h3 : upwardPassFrom m fuel (i + 1) steps arr1 = some arr' := h2
        have hext := upSpanTags_extends hu
        have ihj := ih (i + 1) arr1 arr' h3 j
        rw [upContribFrom_ext (fun t ht => by rw [ht]; simp) hext m fuel steps (i + 1) j]
          at ihj
        rw [upSpanTags_char m fuel s s.Tags arr arr1 hu j] at ihj
        rw [ihj, map_extend_extend]
        simp only [upContribFrom]
        rw [hi]

theorem upwardPass_char {m : List (Nat × Nat)} {fuel : Nat}
    {arr arr' : List processedSpan} (h : upwardPass m fuel arr = some arr') :
    ∀ j, arr'[j]? = (arr[j]?).map (fun s : processedSpan =>
      { s with Tags := s.Tags ++ upContribFrom m arr fuel 0 arr.length j }) :=
  upwardPassFrom_char m fuel arr.length 0 arr arr' h

theorem upwardPass_extends {m : List (Nat × Nat)} {fuel : Nat}
    {arr arr' : List processedSpan} (h : upwardPass m fuel arr = some arr') :
    TagsExtendP (fun t => t.CopiedFromChild) arr arr' := by
  intro j
  exact ⟨upContribFrom m arr fuel 0 arr.length j, upwardPass_char h j,
    fun t ht => upContribFrom_mem ht⟩

/-! ## Characterizing the downward pass -/

theorem downCopy_idem (t : ProcessedTag) : downCopy (downCopy t) = downCopy t := rfl

/-- The child loop of the visit-order computation, with the next level
abstracted out (mirrors `downList`). -/
def downVisitsList (base : List processedSpan) (rec : Nat → Option (List Nat)) :
    List Nat → Option (List Nat)
  | [] => some []
  | i :: rest =>
    match base[i]? with
    | none => downVisitsList base rec rest
    | some c =>
      match rec c.SpanID with
      | none => none
      | some d =>
        match downVisitsList base rec rest with
        | none => none
        | some r => some (i :: (d ++ r))

/-- One fueled level of the visit-order computation from the span with id
`sid` (mirrors `downSubtree`). -/
def downVisitsSubtree (children : Nat → List Nat) (base : List processedSpan) :
    Nat → Nat → Option (List Nat)
  | 0, _ => none
  | f + 1, sid => downVisitsList base (downVisitsSubtree children base f) (children sid)

/-- The arena indices the recursive downward walk appends to, in visit order,
starting from the child list `l` (fuel bounds recursion depth exactly as in
`downStep`; `none` models the unbounded Go recursion). Only `SpanID` fields of
`base` are read. -/
def downVisits (children : Nat → List Nat) (base : List processedSpan)
    (fuel : Nat) (l : List Nat) : Option (List Nat) :=
  downVisitsList base (downVisitsSubtree children base fuel) l

theorem downVisits_nil (children : Nat → List Nat) (base : List processedSpan)
    (fuel : Nat) : downVisits children base fuel [] = some [] := rfl

theorem downVisits_cons_invalid {base : List processedSpan} {i : Nat}
    (children : Nat → List Nat) (fuel : Nat) (rest : List Nat)
    (h : base[i]? = none) :
    downVisits children base fuel (i :: rest) = downVisits children base fuel rest := by
  simp [downVisits, downVisitsList, h]

theorem downVisits_cons_zero {base : List processedSpan} {i : Nat} {c : processedSpan}
    (children : Nat → List Nat) (rest : List Nat) (h : base[i]? = some c) :
    downVisits children base 0 (i :: rest) = none := by
  simp [downVisits, downVisitsList, downVisitsSubtree, h]

theorem downVisits_cons_succ {base : List processedSpan} {i : Nat} {c : processedSpan}
    (children : Nat → List Nat) (f : Nat) (rest : List Nat) (h : base[i]? = some c) :
    downVisits children base (f + 1) (i :: rest) =
      match downVisits children base f (children c.SpanID) with
      | none => none
      | some d =>
        match downVisits children base (f + 1) rest with
        | none => none
        | some r => some (i :: (d ++ r)) := by
  simp only [downVisits]
  conv_lhs => rw [downVisitsList]
  simp only [h]
  rfl

theorem downStep_nil (children : Nat → List Nat) (fuel : Nat) (t : ProcessedTag)
    (arr : List processedSpan) : downStep children fuel t [] arr = some arr := rfl

theorem downStep_cons_invalid {arr : List processedSpan} {i : Nat}
    (children : Nat → List Nat) (fuel : Nat) (t : ProcessedTag) (rest : List Nat)
    (h : arr[i]? = none) :
    downStep children fuel t (i :: rest) arr = downStep children fuel t rest arr := by
  simp [downStep, downList, h]

theorem downStep_cons_zero {arr : List processedSpan} {i : Nat} {c : processedSpan}
    (children : Nat → List Nat) (t : ProcessedTag) (rest : List Nat)
    (h : arr[i]? = some c) :
    downStep children 0 t (i :: rest) arr = none := by
  simp [downStep, downList, downSubtree, h]

theorem downStep_cons_succ {arr : List processedSpan} {i : Nat} {c : processedSpan}
    (children : Nat → List Nat) (f : Nat) (t : ProcessedTag) (rest : List Nat)
    (h : arr[i]? = some c) :
    downStep children (f + 1) t (i :: rest) arr =
      match downStep children f (downCopy t) (children c.SpanID) (appendTagAt arr i t) with
      | none => none
      | some arr2 => downStep children (f + 1) t rest arr2 := by
  simp only [downStep]
  conv_lhs => rw [downList]
  simp only [h]
  rfl

theorem downVisits_ext {ok : ProcessedTag → Bool} {arr arr2 : List processedSpan}
    (hext : TagsExtendP ok arr arr2) (children : Nat → List Nat) :
    ∀ (fuel : Nat) (l : List Nat),
    downVisits children arr2 fuel l = downVisits children arr fuel l := by
  intro fuel
  induction fuel using Nat.strong_induction_on with
  | _ fuel ihf =>
    intro l
    induction l with
    | nil => rw [downVisits_nil, downVisits_nil]
    | cons i rest ihl =>
      obtain ⟨e, he, -⟩ := hext i
      cases hi : arr[i]? with
      | none =>
        have hi2 : arr2[i]? = none := by rw [he, hi]; rfl
        rw [downVisits_cons_invalid children fuel rest hi,
          downVisits_cons_invalid children fuel rest hi2, ihl]
      | some c =>
        have hi2 : arr2[i]? = some { c with Tags := c.Tags ++ e } := by rw [he, hi]; rfl
        cases fuel with
        | zero =>
          rw [downVisits_cons_zero children rest hi, downVisits_cons_zero children rest hi2]
        | succ f =>
          rw [downVisits_cons_succ children f rest hi, downVisits_cons_succ children f rest hi2]
          have hsub : downVisits children arr2 f
              (children ({ c with Tags := c.Tags ++ e } : processedSpan).SpanID) =
              downVisits children arr f (children c.SpanID) :=
            ihf f (Nat.lt_succ_self f) (children c.SpanID)
          rw [hsub, ihl]

theorem downStep_char (children : Nat → List Nat) :
    ∀ (fuel : Nat) (l : List Nat) (t : ProcessedTag) (arr arr' : List processedSpan),
    downCopy t = t →
    downStep children fuel t l arr = some arr' →
    ∃ vs, downVisits children arr fuel l = some vs ∧
      ∀ j, arr'[j]? = (arr[j]?).map (fun s : processedSpan =>
        { s with Tags := s.Tags ++ List.replicate (vs.count j) t }) := by
  intro fuel
  induction fuel using Nat.strong_induction_on with
  | _ fuel ihf =>
    intro l
    induction l with
    | nil =>
      intro t arr arr' hfix h
      rw [downStep_nil] at h
      obtain rfl := Option.some.inj h
      exact ⟨[], downVisits_nil children arr fuel, fun j => (map_extend_nil (arr[j]?)).symm⟩
    | cons i rest ihl =>
      intro t arr arr' hfix h
      cases hi : arr[i]? with
      | none =>
        rw [downStep_cons_invalid children fuel t rest hi] at h
        obtain ⟨vs, hvs, hchar⟩ := ihl t arr arr' hfix h
        refine ⟨vs, ?_, hchar⟩
        rw [downVisits_cons_invalid children fuel rest hi]
        exact hvs
      | some c =>
        cases fuel with
        | zero =>
          rw [downStep_cons_zero children t rest hi] at h
          exact absurd h (by simp)
        | succ f =>
          rw [downStep_cons_succ children f t rest hi] at h
          cases hsub : downStep children f (downCopy t) (children c.SpanID)
              (appendTagAt arr i t) with
          | none => rw [hsub] at h; exact absurd h (by simp)
          | some arr2 =>
            rw [hsub] at h
            have h2 : downStep children (f + 1) t rest arr2 = some arr' := h
            rw [hfix] at hsub
            obtain ⟨d, hd, hdchar⟩ := ihf f (Nat.lt_succ_self f) (children c.SpanID) t
              (appendTagAt arr i t) arr2 hfix hsub
            obtain ⟨r, hr, hrchar⟩ := ihl t arr2 arr' hfix h2
            have ext1 : TagsExtendP (fun _ => true) arr (appendTagAt arr i t) :=
              tagsExtendP_appendTagAt rfl arr i
            have ext2 : TagsExtendP (fun _ => true) (appendTagAt arr i t) arr2 :=
              fun j => ⟨List.replicate (d.count j) t, hdchar j, fun _ _ => rfl⟩
            have ext12 := tagsExtendP_trans ext1 ext2
            rw [downVisits_ext ext1 children f] at hd
            rw [downVisits_ext ext12 children (f + 1)] at hr
            refine ⟨i :: (d ++ r), ?_, ?_⟩
            · rw [downVisits_cons_succ children f rest hi, hd, hr]
            · intro j
              rw [hrchar j, hdchar j, get?_appendTagAt]
              by_cases hj : j = i
              · rw [if_pos hj, map_extend_extend, map_extend_extend]
                have hcnt : (i :: (d ++ r)).count j = d.count j + r.count j + 1 := by
                  subst hj
                  rw [List.count_cons_self, List.count_append]
                have hco : ([t] ++ (List.replicate (d.count j) t ++
                    List.replicate (r.count j) t)) =
                    List.replicate ((i :: (d ++ r)).count j) t := by
                  rw [hcnt, List.replicate_succ, List.replicate_add]
                  rfl
                rw [hco]
              · rw [if_neg hj, map_extend_extend]
                have hcnt : (i :: (d ++ r)).count j = d.count j + r.count j := by
                  rw [List.count_cons_of_ne hj, List.count_append]
                have hco : (List.replicate (d.count j) t ++ List.replicate (r.count j) t) =
                    List.replicate ((i :: (d ++ r)).count j) t := by
                  rw [hcnt, List.replicate_add]
                rw [hco]

/-- The tags of a span eligible to start a downward walk: the loop skips
`!t.Inherit || t.Inherited`. -/
def eligDownTags (ts : List ProcessedTag) : List ProcessedTag :=
  ts.filter (fun t => t.Inherit && !t.Inherited)

/-- `n` downward copies of each of `ts`, in tag order. -/
def copiesForDown (ts : List ProcessedTag) (n : Nat) : List ProcessedTag :=
  match ts with
  | [] => []
  | t :: rest => List.replicate n (downCopy t) ++ copiesForDown rest n

/-- How often the downward walk started with fuel `F` at the span with id
`sid` visits index `j` (0 when the recursion would not terminate). -/
def dvCount (children : Nat → List Nat) (base : List processedSpan)
    (F sid j : Nat) : Nat :=
  match F with
  | 0 => 0
  | f + 1 =>
    match downVisits children base f (children sid) with
    | none => 0
    | some vs => vs.count j

/-- The tags index `j` receives during the downward pass from the spans at
indices `i, i+1, …, i+steps-1`. -/
def downContribFrom (children : Nat → List Nat) (base : List processedSpan)
    (fuel : Nat) : Nat → Nat → Nat → List ProcessedTag
  | _, 0, _ => []
  | i, steps + 1, j =>
    (match base[i]? with
     | none => []
     | some s => copiesForDown (eligDownTags s.Tags) (dvCount children base fuel s.SpanID j))
    ++ downContribFrom children base fuel (i + 1) steps j

theorem mem_copiesForDown {ts : List ProcessedTag} {n : Nat} {t' : ProcessedTag}
    (h : t' ∈ copiesForDown ts n) : ∃ t ∈ ts, t' = downCopy t := by
  induction ts with
  | nil => exact absurd h (by simp [copiesForDown])
  | cons t rest ih =>
    rcases List.mem_append.mp h with h1 | h2
    · exact ⟨t, List.mem_cons_self t rest, List.eq_of_mem_replicate h1⟩
    · obtain ⟨t0, ht0, rfl⟩ := ih h2
      exact ⟨t0, List.mem_cons_of_mem t ht0, rfl⟩

theorem downCopy_Inherited (t : ProcessedTag) : (downCopy t).Inherited = true := rfl

theorem downCopy_PropagateUp (t : ProcessedTag) : (downCopy t).PropagateUp = false := rfl

theorem downCopy_Hidden (t : ProcessedTag) : (downCopy t).Hidden = true := rfl

theorem eligDownTags_append_of_none {ts e : List ProcessedTag}
    (he : ∀ t ∈ e, (t.Inherit && !t.Inherited) = false) :
    eligDownTags (ts ++ e) = eligDownTags ts := by
  unfold eligDownTags
  rw [List.filter_append]
  have hnil : List.filter (fun t => t.Inherit && !t.Inherited) e = [] := by
    rw [List.filter_eq_nil_iff]
    intro a ha
    rw [he a ha]
    simp
  rw [hnil, List.append_nil]

theorem dvCount_succ (children : Nat → List Nat) (base : List processedSpan)
    (f sid j : Nat) :
    dvCount children base (f + 1) sid j =
      match downVisits children base f (children sid) with
      | none => 0
      | some vs => vs.count j := rfl

theorem dvCount_ext {ok : ProcessedTag → Bool} {arr arr2 : List processedSpan}
    (hext : TagsExtendP ok arr arr2) (children : Nat → List Nat) (F sid j : Nat) :
    dvCount children arr2 F sid j = dvCount children arr F sid j := by
  cases F with
  | zero => rfl
  | succ f =>
    rw [dvCount_succ, dvCount_succ, downVisits_ext hext]

theorem propagateInheritTagDownwards_char {children : Nat → List Nat} {fuel : Nat}
    {tag : ProcessedTag} {sp : processedSpan} {arr arr' : List processedSpan}
    (h : propagateInheritTagDownwards children fuel tag sp arr = some arr') :
    ∀ j, arr'[j]? = (arr[j]?).map (fun s : processedSpan =>
      { s with Tags := s.Tags ++
        List.replicate (dvCount children arr fuel sp.SpanID j) (downCopy tag) }) := by
  cases fuel with
  | zero => exact absurd h (by simp [propagateInheritTagDownwards])
  | succ f =>
    have h2 : downStep children f (downCopy tag) (children sp.SpanID) arr = some arr' := h
    obtain ⟨vs, hvs, hchar⟩ := downStep_char children f (children sp.SpanID)
      (downCopy tag) arr arr' (downCopy_idem tag) h2
    intro j
    rw [hchar j, dvCount_succ, hvs]

theorem downSpanTags_char (children : Nat → List Nat) (fuel : Nat) (sp : processedSpan) :
    ∀ (ts : List ProcessedTag) (arr arr' : List processedSpan),
    downSpanTags children fuel sp ts arr = some arr' →
    ∀ j, arr'[j]? = (arr[j]?).map (fun s : processedSpan =>
      { s with Tags := s.Tags ++
          copiesForDown (eligDownTags ts) (dvCount children arr fuel sp.SpanID j) }) := by
  intro ts
  induction ts with
  | nil =>
    intro arr arr' h j
    obtain rfl := Option.some.inj h
    exact (map_extend_nil (arr[j]?)).symm
  | cons t rest ih =>
    intro arr arr' h j
    by_cases hc : (!t.Inherit || t.Inherited) = true
    · rw [show downSpanTags children fuel sp (t :: rest) arr =
          if !t.Inherit || t.Inherited then downSpanTags children fuel sp rest arr
          else match propagateInheritTagDownwards children fuel t sp arr with
            | none => none
            | some arr' => downSpanTags children fuel sp rest arr' from rfl, if_pos hc] at h
      have hcond : (t.Inherit && !t.Inherited) = false := by
        cases hp : t.Inherit <;> cases hq : t.Inherited <;> simp_all
      have helig : eligDownTags (t :: rest) = eligDownTags rest := by
        unfold eligDownTags
        rw [List.filter_cons_of_neg (by simp [hcond])]
      rw [helig]
      exact ih arr arr' h j
    · rw [show downSpanTags children fuel sp (t :: rest) arr =
          if !t.Inherit || t.Inherited then downSpanTags children fuel sp rest arr
          else match propagateInheritTagDownwards children fuel t sp arr with
            | none => none
            | some arr' => downSpanTags children fuel sp rest arr' from rfl, if_neg hc] at h
      have hcond : (t.Inherit && !t.Inherited) = true := by
        cases hp : t.Inherit <;> cases hq : t.Inherited <;> simp_all
      have helig : eligDownTags (t :: rest) = t :: eligDownTags rest := by
        unfold eligDownTags
        rw [List.filter_cons_of_pos (by simp [hcond])]
      cases hp : propagateInheritTagDownwards children fuel t sp arr with
      | none => rw [hp] at h; exact absurd h (by simp)
      | some arr1 =>
        rw [hp] at h
        have hext : TagsExtendP (fun _ => true) arr arr1 := fun j' =>
          ⟨List.replicate (dvCount children arr fuel sp.SpanID j') (downCopy t),
            propagateInheritTagDownwards_char hp j', fun _ _ => rfl⟩
        have ihj := ih arr1 arr' h j
        rw [show dvCount children arr1 fuel sp.SpanID j = dvCount children arr fuel sp.SpanID j
          from dvCount_ext hext children fuel sp.SpanID j] at ihj
        rw [propagateInheritTagDownwards_char hp j] at ihj
        rw [ihj, map_extend_extend, helig]
        rfl

theorem downContribFrom_mem {children : Nat → List Nat} {base : List processedSpan}
    {fuel : Nat} :
    ∀ {steps i j : Nat} {t : ProcessedTag},
    t ∈ downContribFrom children base fuel i steps j → t.Inherited = true := by
  intro steps
  induction steps with
  | zero => intro i j t h; exact absurd h (by simp [downContribFrom])
  | succ steps ih =>
    intro i j t h
    simp only [downContribFrom] at h
    rcases List.mem_append.mp h with h1 | h2
    · cases hi : base[i]? with
      | none => rw [hi] at h1; exact absurd h1 (by simp)
      | some s =>
        rw [hi] at h1
        obtain ⟨t0, -, rfl⟩ := mem_copiesForDown h1
        rfl
    · exact ih h2

theorem downSpanTags_extends {children : Nat → List Nat} {fuel : Nat}
    {sp : processedSpan} {ts : List ProcessedTag} {arr arr' : List processedSpan}
    (h : downSpanTags children fuel sp ts arr = some arr') :
    TagsExtendP (fun t => t.Inherited) arr arr' := by
  intro j
  refine ⟨copiesForDown (eligDownTags ts) (dvCount children arr fuel sp.SpanID j),
    downSpanTags_char children fuel sp ts arr arr' h j, ?_⟩
  intro t ht
  obtain ⟨t0, -, rfl⟩ := mem_copiesForDown ht
  rfl

theorem downContribFrom_ext {ok : ProcessedTag → Bool}
    (hok : ∀ t, ok t = true → (t.Inherit && !t.Inherited) = false)
    {arr arr2 : List processedSpan} (hext : TagsExtendP ok arr arr2)
    (children : Nat → List Nat) (fuel : Nat) :
    ∀ (steps i j : Nat),
    downContribFrom children arr2 fuel i steps j = downContribFrom children arr fuel i steps j := by
  intro steps
  induction steps with
  | zero => intro i j; rfl
  | succ steps ih =>
    intro i j
    simp only [downContribFrom]
    rw [ih (i + 1) j]
    congr 1
    obtain ⟨e, he, hoke⟩ := hext i
    cases hi : arr[i]? with
    | none =>
      have hi2 : arr2[i]? = none := by rw [he, hi]; rfl
      rw [hi2]
    | some s =>
      have hi2 : arr2[i]? = some { s with Tags := s.Tags ++ e } := by rw [he, hi]; rfl
      rw [hi2]
      have helig : eligDownTags (s.Tags ++ e) = eligDownTags s.Tags :=
        eligDownTags_append_of_none (fun t ht => hok t (hoke t ht))
      show copiesForDown (eligDownTags (s.Tags ++ e)) (dvCount children arr2 fuel s.SpanID j) =
        copiesForDown (eligDownTags s.Tags) (dvCount children arr fuel s.SpanID j)
      rw [helig, dvCount_ext hext children fuel s.SpanID j]

theorem downContribFrom_overflow {children : Nat → List Nat} {base : List processedSpan}
    {fuel : Nat} :
    ∀ (steps i j : Nat), base[i]? = none →
      downContribFrom children base fuel i steps j = [] := by
  intro steps
  induction steps with
  | zero => intro i j _; rfl
  | succ steps ih =>
    intro i j hi
    simp only [downContribFrom]
    rw [hi, ih (i + 1) j (getElem?_eq_none_of_le hi (Nat.le_succ i)), List.append_nil]

theorem downwardPassFrom_char (children : Nat → List Nat) (fuel : Nat) :
    ∀ (steps i : Nat) (arr arr' : List processedSpan),
    downwardPassFrom children fuel i steps arr = some arr' →
    ∀ j, arr'[j]? = (arr[j]?).map (fun s : processedSpan =>
      { s with Tags := s.Tags ++ downContribFrom children arr fuel i steps j }) := by
  intro steps
  induction steps with
  | zero =>
    intro i arr arr' h j
    obtain rfl := Option.some.inj h
    exact (map_extend_nil (arr[j]?)).symm
  | succ steps ih =>
    intro i arr arr' h j
    rw [show downwardPassFrom children fuel i (steps + 1) arr =
        match arr[i]? with
        | none => some arr
        | some s =>
          match downSpanTags children fuel s s.Tags arr with
          | none => none
          | some arr2 => downwardPassFrom children fuel (i + 1) steps arr2 from rfl] at h
    cases hi : arr[i]? with
    | none =>
      rw [hi] at h
      obtain rfl := Option.some.inj h
      have hc : downContribFrom children arr fuel i (steps + 1) j = [] := by
        simp only [downContribFrom]
        rw [hi, downContribFrom_overflow steps (i + 1) j
          (getElem?_eq_none_of_le hi (Nat.le_succ i))]
        rfl
      rw [hc, map_extend_nil]
    | some s =>
      rw [hi] at h
      have h2 : (match downSpanTags children fuel s s.Tags arr with
          | none => none
          | some arr2 => downwardPassFrom children fuel (i + 1) steps arr2) = some arr' := h
      cases hu : downSpanTags children fuel s s.Tags arr with
      | none => rw [hu] at h2; exact absurd h2 (by simp)
      | some arr1 =>
        rw [hu] at h2
        have h3 : downwardPassFrom children fuel (i + 1) steps arr1 = some arr' := h2
        have hext := downSpanTags_extends hu
        have ihj := ih (i + 1) arr1 arr' h3 j
        rw [downContribFrom_ext (fun t ht => by rw [ht]; simp) hext children fuel steps (i + 1) j]
          at ihj
        rw [downSpanTags_char children fuel s s.Tags arr arr1 hu j] at ihj
        rw [ihj, map_extend_extend]
        simp only [downContribFrom]
        rw [hi]

theorem downwardPass_char {children : Nat → List Nat} {fuel : Nat}
    {arr arr' : List processedSpan} (h : downwardPass children fuel arr = some arr') :
    ∀ j, arr'[j]? = (arr[j]?).map (fun s : processedSpan =>
      { s with Tags := s.Tags ++ downContribFrom children arr fuel 0 arr.length j }) :=
  downwardPassFrom_char children fuel arr.length 0 arr arr' h

theorem downwardPass_extends {children : Nat → List Nat} {fuel : Nat}
    {arr arr' : List processedSpan} (h : downwardPass children fuel arr = some arr') :
    TagsExtendP (fun t => t.Inherited) arr arr' := by
  intro j
  exact ⟨downContribFrom children arr fuel 0 arr.length j, downwardPass_char h j,
    fun t ht => downContribFrom_mem ht⟩

/-! ## Assembling the pipeline characterization -/

theorem tagsExtendP_length {ok : ProcessedTag → Bool} {a b : List processedSpan}
    (h : TagsExtendP ok a b) : b.length = a.length := by
  have hiff : ∀ j : Nat, (j < a.length ↔ j < b.length) := by
    intro j
    obtain ⟨e, he, -⟩ := h j
    constructor
    · intro hj
      by_contra hb
      have hnone : b[j]? = none := List.getElem?_eq_none (by omega)
      obtain ⟨x, hx⟩ : ∃ x, a[j]? = some x := ⟨_, List.getElem?_eq_getElem hj⟩
      rw [hnone, hx] at he
      exact absurd he (by simp)
    · intro hj
      by_contra hb
      have hnone : a[j]? = none := List.getElem?_eq_none (by omega)
      obtain ⟨x, hx⟩ : ∃ x, b[j]? = some x := ⟨_, List.getElem?_eq_getElem hj⟩
      rw [hnone, hx] at he
      exact absurd he (by simp)
  have h1 := hiff a.length
  have h2 := hiff b.length
  omega

theorem upContribFrom_mem_upCopy {m : List (Nat × Nat)} {base : List processedSpan}
    {fuel : Nat} :
    ∀ {steps i j : Nat} {t : ProcessedTag},
    t ∈ upContribFrom m base fuel i steps j → ∃ t0, t = upCopy t0 := by
  intro steps
  induction steps with
  | zero => intro i j t h; exact absurd h (by simp [upContribFrom])
  | succ steps ih =>
    intro i j t h
    simp only [upContribFrom] at h
    rcases List.mem_append.mp h with h1 | h2
    · cases hi : base[i]? with
      | none => rw [hi] at h1; exact absurd h1 (by simp)
      | some s =>
        rw [hi] at h1
        obtain ⟨t0, -, rfl⟩ := mem_copiesForUp h1
        exact ⟨t0, rfl⟩
    · exact ih h2

theorem upwardPass_extendsUp {m : List (Nat × Nat)} {fuel : Nat}
    {arr arr' : List processedSpan} (h : upwardPass m fuel arr = some arr') :
    TagsExtendP (fun t => t.CopiedFromChild && !t.Inherit) arr arr' := by
  intro j
  refine ⟨upContribFrom m arr fuel 0 arr.length j, upwardPass_char h j, ?_⟩
  intro t ht
  obtain ⟨t0, rfl⟩ := upContribFrom_mem_upCopy ht
  rfl

theorem processSpan_eq {s : RecordedSpan} {snap : SpansSnapshot} {p : processedSpan}
    (h : processSpan s snap = some p) :
    ∃ tags, processTagList (sortStrings (s.Tags.map Prod.fst)) s.Tags snap = some tags ∧
      p = { Operation := s.Operation, TraceID := s.TraceID, SpanID := s.SpanID,
            ParentSpanID := s.ParentSpanID, Start := s.StartTime,
            GoroutineID := s.GoroutineID, Tags := tags } := by
  unfold processSpan at h
  have h2 : (match processTagList (sortStrings (s.Tags.map Prod.fst)) s.Tags snap with
      | none => none
      | some tags =>
        some ({ Operation := s.Operation, TraceID := s.TraceID, SpanID := s.SpanID,
                ParentSpanID := s.ParentSpanID, Start := s.StartTime,
                GoroutineID := s.GoroutineID, Tags := tags } : processedSpan)) = some p := h
  cases hm : processTagList (sortStrings (s.Tags.map Prod.fst)) s.Tags snap with
  | none => rw [hm] at h2; exact absurd h2 (by simp)
  | some tags =>
    rw [hm] at h2
    exact ⟨tags, rfl, (Option.some.inj h2).symm⟩

theorem processSpans_length {spans : List RecordedSpan} {snap : SpansSnapshot}
    {ps : List processedSpan} (h : processSpans spans snap = some ps) :
    ps.length = spans.length := by
  induction spans generalizing ps with
  | nil =>
    obtain rfl := Option.some.inj h
    rfl
  | cons s rest ih =>
    unfold processSpans at h
    cases h1 : processSpan s snap with
    | none => rw [h1] at h; exact absurd h (by simp)
    | some p =>
      rw [h1] at h
      cases h2 : processSpans rest snap with
      | none => rw [h2] at h; exact absurd h (by simp)
      | some ps' =>
        rw [h2] at h
        obtain rfl := Option.some.inj h
        simp [ih h2]

theorem processSpans_get? {spans : List RecordedSpan} {snap : SpansSnapshot}
    {ps : List processedSpan} (h : processSpans spans snap = some ps) :
    ∀ (i : Nat) (r : RecordedSpan), spans[i]? = some r →
      ∃ p, processSpan r snap = some p ∧ ps[i]? = some p := by
  induction spans generalizing ps with
  | nil => intro i r hr; exact absurd hr (by simp)
  | cons s rest ih =>
    intro i r hr
    unfold processSpans at h
    cases h1 : processSpan s snap with
    | none => rw [h1] at h; exact absurd h (by simp)
    | some p =>
      rw [h1] at h
      cases h2 : processSpans rest snap with
      | none => rw [h2] at h; exact absurd h (by simp)
      | some ps' =>
        rw [h2] at h
        obtain rfl := Option.some.inj h
        cases i with
        | zero =>
          rw [List.getElem?_cons_zero] at hr
          obtain rfl := Option.some.inj hr
          exact ⟨p, h1, List.getElem?_cons_zero⟩
        | succ i' =>
          rw [List.getElem?_cons_succ] at hr
          obtain ⟨p', hp', hps'⟩ := ih h2 i' r hr
          exact ⟨p', hp', by simpa using hps'⟩

theorem ProcessSnapshot_char {snap : SpansSnapshot} {out : ProcessedSnapshot}
    (h : ProcessSnapshot snap = some out) :
    ∃ ps, processSpans (flattenTraces snap.Traces) snap = some ps ∧
      out.Spans.length = ps.length ∧
      out.Stacks = addMissingStacks snap.Stacks (flattenTraces snap.Traces) ∧
      upwardPass (mkSpansMap ps) (ps.length + 1) ps ≠ none ∧
      ∀ j, out.Spans[j]? = (ps[j]?).map (fun s : processedSpan =>
        { s with Tags := s.Tags
            ++ upContribFrom (mkSpansMap ps) ps (ps.length + 1) 0 ps.length j
            ++ downContribFrom (childrenIdxs ps) ps (ps.length + 1) 0 ps.length j }) := by
  unfold ProcessSnapshot at h
  have h0 : (match processSpans (flattenTraces snap.Traces) snap with
      | none => none
      | some ps =>
        match upwardPass (mkSpansMap ps) (ps.length + 1) ps with
        | none => none
        | some arr1 =>
          match downwardPass (childrenIdxs ps) (ps.length + 1) arr1 with
          | none => none
          | some arr2 =>
            some { Spans := arr2,
                   Stacks := addMissingStacks snap.Stacks (flattenTraces snap.Traces) }) =
      some out := h
  cases hps : processSpans (flattenTraces snap.Traces) snap with
  | none => rw [hps] at h0; exact absurd h0 (by simp)
  | some ps =>
    rw [hps] at h0
    have h1 : (match upwardPass (mkSpansMap ps) (ps.length + 1) ps with
        | none => none
        | some arr1 =>
          match downwardPass (childrenIdxs ps) (ps.length + 1) arr1 with
          | none => none
          | some arr2 =>
            some { Spans := arr2,
                   Stacks := addMissingStacks snap.Stacks (flattenTraces snap.Traces) }) =
        some out := h0
    cases hup : upwardPass (mkSpansMap ps) (ps.length + 1) ps with
    | none => rw [hup] at h1; exact absurd h1 (by simp)
    | some arr1 =>
      rw [hup] at h1
      have h2 : (match downwardPass (childrenIdxs ps) (ps.length + 1) arr1 with
          | none => none
          | some arr2 =>
            some { Spans := arr2,
                   Stacks := addMissingStacks snap.Stacks (flattenTraces snap.Traces) }) =
          some out := h1
      cases hdn : downwardPass (childrenIdxs ps) (ps.length + 1) arr1 with
      | none => rw [hdn] at h2; exact absurd h2 (by simp)
      | some arr2 =>
        rw [hdn] at h2
        obtain rfl := (Option.some.inj h2).symm
        have hupext := upwardPass_extendsUp hup
        have hdnext := downwardPass_extends hdn
        have hlen1 : arr1.length = ps.length := tagsExtendP_length hupext
        have hlen2 : arr2.length = arr1.length := tagsExtendP_length hdnext
        refine ⟨ps, rfl, ?_, rfl, by rw [hup]; simp, ?_⟩
        · show arr2.length = ps.length
          omega
        · intro j
          show arr2[j]? = _
          have hd := downwardPass_char hdn j
          have hdc : downContribFrom (childrenIdxs ps) arr1 (ps.length + 1) 0 arr1.length j =
              downContribFrom (childrenIdxs ps) ps (ps.length + 1) 0 ps.length j := by
            rw [hlen1]
            exact downContribFrom_ext
              (fun t ht => by
                have h3 : t.CopiedFromChild = true ∧ t.Inherit = false := by
                  cases hc : t.CopiedFromChild <;> cases hin : t.Inherit <;> simp_all
                rw [h3.2]
                simp)
              hupext (childrenIdxs ps) (ps.length + 1) ps.length 0 j
          rw [hd, hdc, upwardPass_char hup j, map_extend_extend]
          cases hpj : ps[j]? with
          | none => rfl
          | some s =>
            simp only [Option.map_some', Option.some.injEq]
            rw [List.append_assoc]

/-! ## Stack stitching lemmas -/

theorem lookupStack_append_of_some {stks : List (Nat × String)} {k : Nat} {v : String}
    (h : lookupStack stks k = some v) (l2 : List (Nat × String)) :
    lookupStack (stks ++ l2) k = some v := by
  unfold lookupStack at h ⊢
  cases hf : stks.find? (fun p => p.1 == k) with
  | none => rw [hf] at h; exact absurd h (by simp)
  | some p =>
    rw [hf] at h
    rw [List.find?_append, hf]
    exact h

theorem lookupStack_append_single_ne {stks : List (Nat × String)} {k g : Nat}
    (hne : g ≠ k) (v : String) :
    lookupStack (stks ++ [(g, v)]) k = lookupStack stks k := by
  unfold lookupStack
  rw [List.find?_append]
  have hone : List.find? (fun p => p.1 == k) [(g, v)] = none := by
    simp [List.find?_cons, hne]
  rw [hone]
  cases hf : stks.find? (fun p => p.1 == k) with
  | none => simp [Option.orElse]
  | some p => simp [Option.orElse]

theorem lookupStack_append_single_self {stks : List (Nat × String)} {k : Nat}
    (h : lookupStack stks k = none) (v : String) :
    lookupStack (stks ++ [(k, v)]) k = some v := by
  unfold lookupStack at h ⊢
  cases hf : stks.find? (fun p => p.1 == k) with
  | none =>
    rw [List.find?_append, hf]
    simp [List.find?]
  | some p => rw [hf] at h; exact absurd h (by simp)

theorem addMissingStacks_preserves {k : Nat} {v : String} :
    ∀ (spans : List RecordedSpan) (stks : List (Nat × String)),
    lookupStack stks k = some v →
    lookupStack (addMissingStacks stks spans) k = some v := by
  intro spans
  induction spans with
  | nil => intro stks h; exact h
  | cons s rest ih =>
    intro stks h
    unfold addMissingStacks
    cases hg : lookupStack stks s.GoroutineID with
    | some w => exact ih stks h
    | none =>
      apply ih
      by_cases hk : s.GoroutineID = k
      · rw [hk] at hg
        rw [hg] at h
        exact absurd h (by simp)
      · rw [lookupStack_append_single_ne hk goroutineStackMsg]
        exact h

theorem addMissingStacks_complete :
    ∀ (spans : List RecordedSpan) (stks : List (Nat × String)),
    ∀ s ∈ spans, ∃ v, lookupStack (addMissingStacks stks spans) s.GoroutineID = some v := by
  intro spans
  induction spans with
  | nil => intro stks s hs; exact absurd hs (by simp)
  | cons s0 rest ih =>
    intro stks s hs
    unfold addMissingStacks
    cases hg : lookupStack stks s0.GoroutineID with
    | some w =>
      rcases List.mem_cons.mp hs with rfl | hs'
      · exact ⟨w, addMissingStacks_preserves rest stks hg⟩
      · exact ih stks s hs'
    | none =>
      have hself : lookupStack (stks ++ [(s0.GoroutineID, goroutineStackMsg)])
          s0.GoroutineID = some goroutineStackMsg :=
        lookupStack_append_single_self hg goroutineStackMsg
      rcases List.mem_cons.mp hs with rfl | hs'
      · exact ⟨goroutineStackMsg, addMissingStacks_preserves rest _ hself⟩
      · exact ih _ s hs'

theorem addMissingStacks_not_referenced {k : Nat} :
    ∀ (spans : List RecordedSpan) (stks : List (Nat × String)),
    k ∉ spans.map RecordedSpan.GoroutineID →
    lookupStack (addMissingStacks stks spans) k = lookupStack stks k := by
  intro spans
  induction spans with
  | nil => intro stks _; rfl
  | cons s rest ih =>
    intro stks hk
    have hk1 : s.GoroutineID ≠ k := by
      intro he
      exact hk (by simp [← he])
    have hk2 : k ∉ rest.map RecordedSpan.GoroutineID := by
      intro hmem
      exact hk (by simp [hmem])
    unfold addMissingStacks
    cases hg : lookupStack stks s.GoroutineID with
    | some w => exact ih stks hk2
    | none =>
      rw [ih _ hk2, lookupStack_append_single_ne hk1 goroutineStackMsg]

theorem addMissingStacks_placeholder {k : Nat} :
    ∀ (spans : List RecordedSpan) (stks : List (Nat × String)),
    lookupStack stks k = none →
    k ∈ spans.map RecordedSpan.GoroutineID →
    lookupStack (addMissingStacks stks spans) k = some goroutineStackMsg := by
  intro spans
  induction spans with
  | nil => intro stks _ hk; exact absurd hk (by simp)
  | cons s rest ih =>
    intro stks hnone hk
    unfold addMissingStacks
    by_cases hks : s.GoroutineID = k
    · rw [← hks] at hnone ⊢
      cases hg : lookupStack stks s.GoroutineID with
      | some w => rw [hg] at hnone; exact absurd hnone (by simp)
      | none =>
        exact addMissingStacks_preserves rest _
          (lookupStack_append_single_self hg goroutineStackMsg)
    · have hk2 : k ∈ rest.map RecordedSpan.GoroutineID := by
        rcases List.mem_map.mp hk with ⟨s', hs', he⟩
        rcases List.mem_cons.mp hs' with rfl | hmem
        · exact absurd he hks
        · exact List.mem_map.mpr ⟨s', hmem, he⟩
      cases hg : lookupStack stks s.GoroutineID with
      | some w => exact ih stks hnone hk2
      | none =>
        apply ih
        · rw [lookupStack_append_single_ne hks goroutineStackMsg]
          exact hnone
        · exact hk2

/-! ## Facts about the enrichment step -/

/-- The caption chosen for a `lock_holder_txn` tag. -/
def lockCaption (v : String) (snap : SpansSnapshot) : String :=
  let st := findTxnState v snap
  if !st.found then "blocked on unknown transaction"
  else if st.curQuery != "" then
    "blocked on txn currently running query: " ++ st.curQuery
  else "blocked on idle txn"

theorem processTag_eq (k v : String) (snap : SpansSnapshot) :
    processTag k v snap =
      if k == "lock_holder_txn" then
        (if 8 ≤ v.length then
          some { Key := k, Val := strTake v 8, Caption := lockCaption v snap,
                 Link := strTake v 8, Hidden := hiddenTags.contains k,
                 Highlight := true, Inherit := false, Inherited := false,
                 PropagateUp := true, CopiedFromChild := false }
        else none)
      else if k == "statement" then
        some { Key := k, Val := v, Caption := "", Link := "",
               Hidden := hiddenTags.contains k, Highlight := false, Inherit := true,
               Inherited := false, PropagateUp := true, CopiedFromChild := false }
      else
        some { Key := k, Val := v, Caption := "", Link := "",
               Hidden := hiddenTags.contains k, Highlight := false, Inherit := false,
               Inherited := false, PropagateUp := false, CopiedFromChild := false } := rfl

theorem processTag_base {k v : String} {snap : SpansSnapshot} {t : ProcessedTag}
    (h : processTag k v snap = some t) :
    t.Key = k ∧ t.CopiedFromChild = false ∧ t.Inherited = false := by
  rw [processTag_eq] at h
  by_cases h1 : (k == "lock_holder_txn") = true
  · rw [if_pos h1] at h
    by_cases h2 : 8 ≤ v.length
    · rw [if_pos h2] at h
      obtain rfl := Option.some.inj h
      exact ⟨rfl, rfl, rfl⟩
    · rw [if_neg h2] at h
      exact absurd h (by simp)
  · rw [if_neg h1] at h
    by_cases h3 : (k == "statement") = true
    · rw [if_pos h3] at h
      obtain rfl := Option.some.inj h
      exact ⟨rfl, rfl, rfl⟩
    · rw [if_neg h3] at h
      obtain rfl := Option.some.inj h
      exact ⟨rfl, rfl, rfl⟩

theorem processTagList_keys {snap : SpansSnapshot} {tags : List (String × String)} :
    ∀ {ks : List String} {ts : List ProcessedTag},
    processTagList ks tags snap = some ts →
    ts.map ProcessedTag.Key = ks := by
  intro ks
  induction ks with
  | nil =>
    intro ts h
    obtain rfl := (Option.some.inj h).symm
    rfl
  | cons k rest ih =>
    intro ts h
    unfold processTagList at h
    cases h1 : processTag k (lookupTag tags k) snap with
    | none => rw [h1] at h; exact absurd h (by simp)
    | some t =>
      rw [h1] at h
      cases h2 : processTagList rest tags snap with
      | none => rw [h2] at h; exact absurd h (by simp)
      | some ts' =>
        rw [h2] at h
        obtain rfl := (Option.some.inj h).symm
        simp only [List.map_cons, (processTag_base h1).1, ih h2]

theorem processTagList_mem_flags {snap : SpansSnapshot} {tags : List (String × String)} :
    ∀ {ks : List String} {ts : List ProcessedTag},
    processTagList ks tags snap = some ts →
    ∀ t ∈ ts, t.CopiedFromChild = false ∧ t.Inherited = false := by
  intro ks
  induction ks with
  | nil =>
    intro ts h t ht
    obtain rfl := (Option.some.inj h).symm
    exact absurd ht (by simp)
  | cons k rest ih =>
    intro ts h t ht
    unfold processTagList at h
    cases h1 : processTag k (lookupTag tags k) snap with
    | none => rw [h1] at h; exact absurd h (by simp)
    | some t0 =>
      rw [h1] at h
      cases h2 : processTagList rest tags snap with
      | none => rw [h2] at h; exact absurd h (by simp)
      | some ts' =>
        rw [h2] at h
        obtain rfl := (Option.some.inj h).symm
        rcases List.mem_cons.mp ht with rfl | hmem
        · exact (processTag_base h1).2
        · exact ih h2 t hmem

theorem processedSpan_tags_flags {s : RecordedSpan} {snap : SpansSnapshot}
    {p : processedSpan} (h : processSpan s snap = some p) :
    ∀ t ∈ p.Tags, t.CopiedFromChild = false ∧ t.Inherited = false := by
  obtain ⟨tags, htl, rfl⟩ := processSpan_eq h
  exact processTagList_mem_flags htl

theorem ps_tags_flags {spans : List RecordedSpan} {snap : SpansSnapshot}
    {ps : List processedSpan} (h : processSpans spans snap = some ps) :
    ∀ (i : Nat) (s : processedSpan), ps[i]? = some s →
    ∀ t ∈ s.Tags, t.CopiedFromChild = false ∧ t.Inherited = false := by
  intro i s hs t ht
  have hlen : i < ps.length := by
    by_contra hge
    rw [List.getElem?_eq_none (by omega)] at hs
    exact absurd hs (by simp)
  have hlen2 : i < spans.length := by rw [← processSpans_length h]; exact hlen
  obtain ⟨r, hr⟩ : ∃ r, spans[i]? = some r := ⟨_, List.getElem?_eq_getElem hlen2⟩
  obtain ⟨p, hp, hpi⟩ := processSpans_get? h i r hr
  rw [hs] at hpi
  obtain rfl := Option.some.inj hpi
  exact processedSpan_tags_flags hp t ht

theorem mem_downContribFrom_src {children : Nat → List Nat} {base : List processedSpan}
    {fuel : Nat} :
    ∀ {steps i j : Nat} {t : ProcessedTag},
    t ∈ downContribFrom children base fuel i steps j →
    ∃ (i2 : Nat) (s : processedSpan) (t0 : ProcessedTag),
      base[i2]? = some s ∧ t0 ∈ s.Tags ∧ t = downCopy t0 := by
  intro steps
  induction steps with
  | zero => intro i j t h; exact absurd h (by simp [downContribFrom])
  | succ steps ih =>
    intro i j t h
    simp only [downContribFrom] at h
    rcases List.mem_append.mp h with h1 | h2
    · cases hi : base[i]? with
      | none => rw [hi] at h1; exact absurd h1 (by simp)
      | some s =>
        rw [hi] at h1
        obtain ⟨t0, ht0, rfl⟩ := mem_copiesForDown h1
        exact ⟨i, s, t0, hi, List.mem_of_mem_filter ht0, rfl⟩
    · exact ih h2

theorem mem_upContribFrom_src {m : List (Nat × Nat)} {base : List processedSpan}
    {fuel : Nat} :
    ∀ {steps i j : Nat} {t : ProcessedTag},
    t ∈ upContribFrom m base fuel i steps j →
    ∃ (i2 : Nat) (s : processedSpan) (t0 : ProcessedTag),
      base[i2]? = some s ∧ t0 ∈ s.Tags ∧ t = upCopy t0 := by
  intro steps
  induction steps with
  | zero => intro i j t h; exact absurd h (by simp [upContribFrom])
  | succ steps ih =>
    intro i j t h
    simp only [upContribFrom] at h
    rcases List.mem_append.mp h with h1 | h2
    · cases hi : base[i]? with
      | none => rw [hi] at h1; exact absurd h1 (by simp)
      | some s =>
        rw [hi] at h1
        obtain ⟨t0, ht0, rfl⟩ := mem_copiesForUp h1
        exact ⟨i, s, t0, hi, List.mem_of_mem_filter ht0, rfl⟩
    · exact ih h2

/-! ## Concrete snapshots used in counterexamples and witnesses -/

/-- Shorthand for building a raw span. -/
def mkRaw (op : String) (tid sid pid gid : Nat) (tags : List (String × String)) :
    RecordedSpan :=
  { Operation := op, TraceID := tid, SpanID := sid, ParentSpanID := pid,
    StartTime := 0, GoroutineID := gid, Tags := tags }

/-- A parent span, a child carrying a `statement` tag (both `PropagateUp` and
`Inherit`), and a second child with no tags. -/
def snapFanOut : SpansSnapshot :=
  { Traces := [[mkRaw "p" 1 1 0 1 [], mkRaw "a" 1 2 1 1 [("statement", "S")],
                mkRaw "b" 1 3 1 1 []]],
    Stacks := [] }

/-- A parent whose only tag key sorts after `statement`, with a child carrying
a `statement` tag. -/
def snapSortBreak : SpansSnapshot :=
  { Traces := [[mkRaw "p" 1 1 0 1 [("z1", "x")],
                mkRaw "a" 1 2 1 1 [("statement", "S")]]],
    Stacks := [] }

/-- A trace with a matching `sql txn` span and a `sql query` span carrying no
`statement` tag, plus a blocked span in another trace. -/
def snapIdleQuery : SpansSnapshot :=
  { Traces := [[mkRaw "sql txn" 1 10 0 1 [("txn", "aaaaaaaa")],
                mkRaw "sql query" 1 11 10 1 []],
               [mkRaw "w" 2 20 0 2 [("lock_holder_txn", "aaaaaaaa")]]],
    Stacks := [] }

/-- A single span that is its own parent, carrying a `statement` tag: the
upward walk and the downward recursion both cycle on it. -/
def snapSelfCycle : SpansSnapshot :=
  { Traces := [[mkRaw "s" 1 1 1 1 [("statement", "S")]]],
    Stacks := [] }

/-- A span whose `lock_holder_txn` value is shorter than 8 bytes. -/
def snapShortTxn : SpansSnapshot :=
  { Traces := [[mkRaw "s" 1 1 0 1 [("lock_holder_txn", "abc")]]],
    Stacks := [] }

/-- The enriched `statement` tag (original, no special caption). -/
def stmtTag (v : String) : ProcessedTag :=
  { Key := "statement", Val := v, Caption := "", Link := "", Hidden := false,
    Highlight := false, Inherit := true, Inherited := false, PropagateUp := true,
    CopiedFromChild := false }

/-- The processed table of `snapSelfCycle` (one self-parented span). -/
def psSelfCycle : List processedSpan :=
  [{ Operation := "s", TraceID := 1, SpanID := 1, ParentSpanID := 1, Start := 0,
     GoroutineID := 1, Tags := [stmtTag "S"] }]

/-- The single span of `psSelfCycle`. -/
def spSelf : processedSpan :=
  { Operation := "s", TraceID := 1, SpanID := 1, ParentSpanID := 1, Start := 0,
    GoroutineID := 1, Tags := [stmtTag "S"] }

/-! ## Divergence on parent-id cycles (no cycle guard in the source) -/

theorem upLoop_self_cycle {m : List (Nat × Nat)} (hm : lookupIdx m 1 = some 0) :
    ∀ (fuel : Nat) (t : ProcessedTag) (arr : List processedSpan),
    (∀ p, arr[0]? = some p → p.ParentSpanID = 1) →
    (arr[0]?).isSome = true →
    upLoop m fuel t 1 arr = none := by
  intro fuel
  induction fuel with
  | zero => intro t arr _ _; rfl
  | succ f ih =>
    intro t arr hpar hsome
    cases harr : arr[0]? with
    | none => rw [harr] at hsome; exact absurd hsome (by simp)
    | some p =>
      rw [upLoop_succ_step f t hm harr, hpar p harr]
      apply ih
      · intro p2 hp2
        rw [get?_appendTagAt, if_pos rfl, harr] at hp2
        obtain rfl := (Option.some.inj hp2).symm
        exact hpar p harr
      · rw [get?_appendTagAt, if_pos rfl, harr]
        rfl

theorem downSubtree_self_cycle {children : Nat → List Nat} (hch : children 1 = [0]) :
    ∀ (fuel : Nat) (t : ProcessedTag) (arr : List processedSpan),
    (∀ c, arr[0]? = some c → c.SpanID = 1) →
    (arr[0]?).isSome = true →
    downSubtree children fuel t 1 arr = none := by
  intro fuel
  induction fuel with
  | zero => intro t arr _ _; rfl
  | succ f ih =>
    intro t arr hsid hsome
    cases harr : arr[0]? with
    | none => rw [harr] at hsome; exact absurd hsome (by simp)
    | some c =>
      show downList (downSubtree children f) (downCopy t) (children 1) arr = none
      rw [hch]
      have hstep : downList (downSubtree children f) (downCopy t) [0] arr =
          match downSubtree children f (downCopy t) c.SpanID
              (appendTagAt arr 0 (downCopy t)) with
          | none => none
          | some arr2 => downList (downSubtree children f) (downCopy t) [] arr2 := by
        conv_lhs => rw [downList]
        rw [harr]
      rw [hstep, hsid c harr]
      have hnone : downSubtree children f (downCopy t) 1
          (appendTagAt arr 0 (downCopy t)) = none := by
        apply ih
        · intro c2 hc2
          rw [get?_appendTagAt, if_pos rfl, harr] at hc2
          obtain rfl := (Option.some.inj hc2).symm
          exact hsid c harr
        · rw [get?_appendTagAt, if_pos rfl, harr]
          rfl
      rw [hnone]

theorem propagateInheritTagDownwards_eq_downSubtree (children : Nat → List Nat)
    (fuel : Nat) (tag : ProcessedTag) (sp : processedSpan) (arr : List processedSpan) :
    propagateInheritTagDownwards children fuel tag sp arr =
      downSubtree children fuel tag sp.SpanID arr := by
  cases fuel <;> rfl

/-- C3: the claim says both walks terminate thanks to a cycle guard. The code
has no guard: on a span that is its own parent, the whole pipeline fails to
return (`none`), and both the upward loop and the downward recursion diverge —
they return `none` for EVERY fuel bound, i.e. the Go loop/recursion never
finishes. -/
theorem C3_cycle_no_guard :
    ProcessSnapshot snapSelfCycle = none ∧
    (∀ (fuel : Nat) (t : ProcessedTag),
      upLoop (mkSpansMap psSelfCycle) fuel t 1 psSelfCycle = none) ∧
    (∀ (fuel : Nat) (t : ProcessedTag),
      propagateInheritTagDownwards (childrenIdxs psSelfCycle) fuel t spSelf
        psSelfCycle = none) := by
  refine ⟨rfl, ?_, ?_⟩
  · intro fuel t
    apply upLoop_self_cycle (by rfl) fuel t psSelfCycle
    · intro p hp
      obtain rfl := (Option.some.inj hp).symm
      rfl
    · rfl
  · intro fuel t
    rw [propagateInheritTagDownwards_eq_downSubtree]
    apply downSubtree_self_cycle (by rfl) fuel t psSelfCycle
    · intro c hc
      obtain rfl := (Option.some.inj hc).symm
      rfl
    · rfl

/-! ## C1, C2: upward copies and the unguarded truncation -/

/-- C1 (counterexample): in `snapFanOut`, span `a` (index 1) carries an
original `statement` tag with both `PropagateUp` and `Inherit`; the copy the
upward pass appends to the parent `p` (index 0) has `Inherit = false` — not
preserved — and the parent's other child `b` (index 2) receives no tag at all
from the downward pass, refuting the claimed downward fan-out from the
ancestor position. -/
theorem C1_counterexample :
    (ProcessSnapshot snapFanOut).map (fun o => o.Spans.map (fun sp =>
      sp.Tags.map (fun t => (t.Key, t.Inherit, t.CopiedFromChild)))) =
      some [[("statement", false, true)], [("statement", true, false)], []] := by rfl

/-- C1 (amended): every tag in the processed output with `CopiedFromChild`
set has `Inherit` cleared: the upward copy rewrites `Inherit` to false, so a
tag never propagates downward from its ancestor position. -/
theorem C1_upward_copy_clears_inherit :
    ∀ (snap : SpansSnapshot) (out : ProcessedSnapshot),
    ProcessSnapshot snap = some out →
    ∀ (j : Nat) (sp : processedSpan), out.Spans[j]? = some sp →
    ∀ t ∈ sp.Tags, t.CopiedFromChild = true → t.Inherit = false := by
  intro snap out h j sp hsp t ht hc
  obtain ⟨ps, hps, -, -, -, hchar⟩ := ProcessSnapshot_char h
  rw [hchar j] at hsp
  rw [Option.map_eq_some'] at hsp
  obtain ⟨s, hs, rfl⟩ := hsp
  simp only [List.append_assoc, List.mem_append] at ht
  rcases ht with horig | hup | hdown
  · have := (ps_tags_flags hps j s hs t horig).1
    rw [this] at hc
    exact absurd hc (by simp)
  · obtain ⟨t0, rfl⟩ := upContribFrom_mem_upCopy hup
    rfl
  · obtain ⟨i2, s2, t0, hs2, ht0, rfl⟩ := mem_downContribFrom_src hdown
    have ht0c : t0.CopiedFromChild = false := (ps_tags_flags hps i2 s2 hs2 t0 ht0).1
    have : (downCopy t0).CopiedFromChild = t0.CopiedFromChild := rfl
    rw [this, ht0c] at hc
    exact absurd hc (by simp)

/-- The processed output of `snapFanOut`, used as a concrete witness. -/
def outFanOut : ProcessedSnapshot :=
  { Spans := [
      { Operation := "p", TraceID := 1, SpanID := 1, ParentSpanID := 0, Start := 0,
        GoroutineID := 1,
        Tags := [{ Key := "statement", Val := "S", Caption := "", Link := "",
                   Hidden := false, Highlight := false, Inherit := false,
                   Inherited := false, PropagateUp := true, CopiedFromChild := true }] },
      { Operation := "a", TraceID := 1, SpanID := 2, ParentSpanID := 1, Start := 0,
        GoroutineID := 1, Tags := [stmtTag "S"] },
      { Operation := "b", TraceID := 1, SpanID := 3, ParentSpanID := 1, Start := 0,
        GoroutineID := 1, Tags := [] }],
    Stacks := [(1, goroutineStackMsg)] }

/-- Witness for the amended C1 theorem at the concrete snapshot `snapFanOut`. -/
theorem C1_upward_copy_clears_inherit_witness :
    ProcessSnapshot snapFanOut = some outFanOut ∧
    (∀ (j : Nat) (sp : processedSpan), outFanOut.Spans[j]? = some sp →
      ∀ t ∈ sp.Tags, t.CopiedFromChild = true → t.Inherit = false) :=
  ⟨by rfl, C1_upward_copy_clears_inherit snapFanOut outFanOut (by rfl)⟩

/-- C2: a `lock_holder_txn` tag whose value is shorter than 8 bytes makes the
unguarded `v[:8]` panic: the enrichment faults (modelled `none`) and the whole
`ProcessSnapshot` call aborts instead of truncating to `min(len, 8)`. -/
theorem C2_short_value_panics :
    processTag "lock_holder_txn" "abc" snapShortTxn = none ∧
    ProcessSnapshot snapShortTxn = none := ⟨rfl, rfl⟩

/-! ## C9: identity fields are never mutated after the Indexer -/

/-- C9: for every output span, the identity fields (operation, trace id, span
id, parent span id, start time, goroutine id) equal those of the originating
raw span: enrichment copies them verbatim and both propagation passes and
stack stitching only append to `Tags`. -/
theorem C9_identity_frame :
    ∀ (snap : SpansSnapshot) (out : ProcessedSnapshot),
    ProcessSnapshot snap = some out →
    out.Spans.length = (flattenTraces snap.Traces).length ∧
    ∀ (i : Nat) (r : RecordedSpan), (flattenTraces snap.Traces)[i]? = some r →
      ∃ sp, out.Spans[i]? = some sp ∧ sp.Operation = r.Operation ∧
        sp.TraceID = r.TraceID ∧ sp.SpanID = r.SpanID ∧
        sp.ParentSpanID = r.ParentSpanID ∧ sp.Start = r.StartTime ∧
        sp.GoroutineID = r.GoroutineID := by
  intro snap out h
  obtain ⟨ps, hps, hlen, -, -, hchar⟩ := ProcessSnapshot_char h
  refine ⟨by rw [hlen, processSpans_length hps], ?_⟩
  intro i r hr
  obtain ⟨p, hp, hpi⟩ := processSpans_get? hps i r hr
  obtain ⟨tags, -, rfl⟩ := processSpan_eq hp
  refine ⟨_, by rw [hchar i, hpi]; rfl, rfl, rfl, rfl, rfl, rfl, rfl⟩

/-- Witness for C9 at the concrete snapshot `snapFanOut`. -/
theorem C9_identity_frame_witness :
    ProcessSnapshot snapFanOut = some outFanOut ∧
    (outFanOut.Spans.length = (flattenTraces snapFanOut.Traces).length ∧
    ∀ (i : Nat) (r : RecordedSpan), (flattenTraces snapFanOut.Traces)[i]? = some r →
      ∃ sp, outFanOut.Spans[i]? = some sp ∧ sp.Operation = r.Operation ∧
        sp.TraceID = r.TraceID ∧ sp.SpanID = r.SpanID ∧
        sp.ParentSpanID = r.ParentSpanID ∧ sp.Start = r.StartTime ∧
        sp.GoroutineID = r.GoroutineID) :=
  ⟨by rfl, C9_identity_frame snapFanOut outFanOut (by rfl)⟩

/-! ## C8: stack completeness -/

/-- C8: the output stack map answers every goroutine id referenced by an
output span; raw entries are returned verbatim (never overwritten); and the
placeholder is the answer exactly for referenced ids absent from the raw map. -/
theorem C8_stack_completeness :
    ∀ (snap : SpansSnapshot) (out : ProcessedSnapshot),
    ProcessSnapshot snap = some out →
    (∀ (j : Nat) (sp : processedSpan), out.Spans[j]? = some sp →
      ∃ v, lookupStack out.Stacks sp.GoroutineID = some v) ∧
    (∀ (k : Nat) (v : String), lookupStack snap.Stacks k = some v →
      lookupStack out.Stacks k = some v) ∧
    (∀ k : Nat, lookupStack snap.Stacks k = none →
      (lookupStack out.Stacks k = some goroutineStackMsg ↔
        k ∈ (flattenTraces snap.Traces).map RecordedSpan.GoroutineID)) := by
  intro snap out h
  obtain ⟨ps, hps, hlen, hstk, -, hchar⟩ := ProcessSnapshot_char h
  refine ⟨?_, ?_, ?_⟩
  · intro j sp hsp
    rw [hchar j, Option.map_eq_some'] at hsp
    obtain ⟨s, hs, rfl⟩ := hsp
    have hj : j < ps.length := by
      by_contra hge
      rw [List.getElem?_eq_none (by omega)] at hs
      exact absurd hs (by simp)
    have hj2 : j < (flattenTraces snap.Traces).length := by
      rw [← processSpans_length hps]
      exact hj
    obtain ⟨r, hr⟩ : ∃ r, (flattenTraces snap.Traces)[j]? = some r :=
      ⟨_, List.getElem?_eq_getElem hj2⟩
    obtain ⟨p, hp, hpi⟩ := processSpans_get? hps j r hr
    rw [hs] at hpi
    obtain rfl := Option.some.inj hpi
    obtain ⟨tags, -, rfl⟩ := processSpan_eq hp
    have hmem : r ∈ flattenTraces snap.Traces := List.getElem?_mem hr
    obtain ⟨v, hv⟩ := addMissingStacks_complete (flattenTraces snap.Traces)
      snap.Stacks r hmem
    rw [hstk]
    exact ⟨v, hv⟩
  · intro k v hv
    rw [hstk]
    exact addMissingStacks_preserves _ _ hv
  · intro k hk
    constructor
    · intro hmsg
      by_contra hmem
      rw [hstk, addMissingStacks_not_referenced _ _ hmem, hk] at hmsg
      exact absurd hmsg (by simp)
    · intro hmem
      rw [hstk]
      exact addMissingStacks_placeholder _ _ hk hmem

/-- Witness for C8 at the concrete snapshot `snapFanOut`. -/
theorem C8_stack_completeness_witness :
    ProcessSnapshot snapFanOut = some outFanOut ∧
    ((∀ (j : Nat) (sp : processedSpan), outFanOut.Spans[j]? = some sp →
      ∃ v, lookupStack outFanOut.Stacks sp.GoroutineID = some v) ∧
    (∀ (k : Nat) (v : String), lookupStack snapFanOut.Stacks k = some v →
      lookupStack outFanOut.Stacks k = some v) ∧
    (∀ k : Nat, lookupStack snapFanOut.Stacks k = none →
      (lookupStack outFanOut.Stacks k = some goroutineStackMsg ↔
        k ∈ (flattenTraces snapFanOut.Traces).map RecordedSpan.GoroutineID))) :=
  ⟨by rfl, C8_stack_completeness snapFanOut outFanOut (by rfl)⟩

/-! ## Order properties of the byte-order comparison -/

theorem strListLe_cons_iff {x y : Char} {xs ys : List Char} :
    strListLe (x :: xs) (y :: ys) = true ↔
      (x.toNat < y.toNat ∨ (x.toNat = y.toNat ∧ strListLe xs ys = true)) := by
  simp only [strListLe]
  by_cases h1 : x.toNat < y.toNat
  · simp [h1]
  · by_cases h2 : y.toNat < x.toNat
    · simp only [if_neg h1, if_pos h2]
      constructor
      · intro hf; exact absurd hf (by simp)
      · intro hc
        rcases hc with hlt | ⟨heq, -⟩
        · omega
        · omega
    · have heq : x.toNat = y.toNat := by omega
      simp [h1, h2, heq]

theorem strListLe_total : ∀ (a b : List Char),
    strListLe a b = true ∨ strListLe b a = true := by
  intro a
  induction a with
  | nil => intro b; exact Or.inl rfl
  | cons x xs ih =>
    intro b
    cases b with
    | nil => exact Or.inr rfl
    | cons y ys =>
      rcases Nat.lt_trichotomy x.toNat y.toNat with hlt | heq | hgt
      · exact Or.inl (strListLe_cons_iff.mpr (Or.inl hlt))
      · rcases ih ys with h | h
        · exact Or.inl (strListLe_cons_iff.mpr (Or.inr ⟨heq, h⟩))
        · exact Or.inr (strListLe_cons_iff.mpr (Or.inr ⟨heq.symm, h⟩))
      · exact Or.inr (strListLe_cons_iff.mpr (Or.inl hgt))

theorem strListLe_trans : ∀ (a b c : List Char),
    strListLe a b = true → strListLe b c = true → strListLe a c = true := by
  intro a
  induction a with
  | nil => intro b c _ _; rfl
  | cons x xs ih =>
    intro b c hab hbc
    cases b with
    | nil => exact absurd hab (by simp [strListLe])
    | cons y ys =>
      cases c with
      | nil => exact absurd hbc (by simp [strListLe])
      | cons z zs =>
        rcases strListLe_cons_iff.mp hab with h1 | ⟨h1, h1r⟩ <;>
          rcases strListLe_cons_iff.mp hbc with h2 | ⟨h2, h2r⟩
        · exact strListLe_cons_iff.mpr (Or.inl (by omega))
        · exact strListLe_cons_iff.mpr (Or.inl (by omega))
        · exact strListLe_cons_iff.mpr (Or.inl (by omega))
        · exact strListLe_cons_iff.mpr (Or.inr ⟨by omega, ih ys zs h1r h2r⟩)

theorem strListLe_antisymm : ∀ (a b : List Char),
    strListLe a b = true → strListLe b a = true → a = b := by
  intro a
  induction a with
  | nil =>
    intro b hab hba
    cases b with
    | nil => rfl
    | cons y ys => exact absurd hba (by simp [strListLe])
  | cons x xs ih =>
    intro b hab hba
    cases b with
    | nil => exact absurd hab (by simp [strListLe])
    | cons y ys =>
      rcases strListLe_cons_iff.mp hab with h1 | ⟨h1, h1r⟩ <;>
        rcases strListLe_cons_iff.mp hba with h2 | ⟨h2, h2r⟩
      · omega
      · omega
      · omega
      · have hchar : x = y := Char.eq_of_val_eq (UInt32.ext h1)
        rw [hchar, ih ys h1r h2r]

instance : IsTotal String strLe :=
  ⟨fun a b => strListLe_total a.data b.data⟩

instance : IsTrans String strLe :=
  ⟨fun a b c => strListLe_trans a.data b.data c.data⟩

instance : IsAntisymm String strLe :=
  ⟨fun a b hab hba => String.ext (strListLe_antisymm a.data b.data hab hba)⟩

theorem sortStrings_sorted (l : List String) : List.Sorted strLe (sortStrings l) :=
  List.sorted_insertionSort strLe l

theorem sortStrings_perm (l : List String) : (sortStrings l).Perm l :=
  List.perm_insertionSort strLe l

theorem tagsSortedByKey_of_sorted :
    ∀ (ts : List ProcessedTag),
    List.Sorted strLe (ts.map ProcessedTag.Key) → tagsSortedByKey ts = true := by
  intro ts
  induction ts with
  | nil => intro _; rfl
  | cons t1 rest ih =>
    intro hs
    cases rest with
    | nil => rfl
    | cons t2 rest2 =>
      simp only [List.map_cons, List.sorted_cons] at hs
      obtain ⟨hhead, htail⟩ := hs
      have h12 : strLe t1.Key t2.Key := hhead t2.Key (by simp)
      show (goStrLe t1.Key t2.Key && tagsSortedByKey (t2 :: rest2)) = true
      rw [h12, ih (by simpa [List.sorted_cons] using htail)]
      rfl

/-! ## C4: tag ordering -/

/-- C4 (counterexample): after the propagation passes, the parent span of
`snapSortBreak` carries keys `[z1, statement]` — the upward copy was appended
after the initial sort and breaks the ascending key order. -/
theorem C4_counterexample :
    (ProcessSnapshot snapSortBreak).map (fun o => o.Spans.map (fun sp =>
      (tagsSortedByKey sp.Tags, sp.Tags.map (fun t => t.Key)))) =
      some [(false, ["z1", "statement"]), (true, ["statement"])] := by rfl

/-- C4 (amended): the tag list produced by enrichment (`processSpan`, before
the propagation passes) is sorted by key ascending in byte order. -/
theorem C4_sorted_before_propagation :
    ∀ (s : RecordedSpan) (snap : SpansSnapshot) (p : processedSpan),
    processSpan s snap = some p → tagsSortedByKey p.Tags = true := by
  intro s snap p h
  obtain ⟨tags, htl, rfl⟩ := processSpan_eq h
  apply tagsSortedByKey_of_sorted
  show List.Sorted strLe (tags.map ProcessedTag.Key)
  rw [processTagList_keys htl]
  exact sortStrings_sorted _

/-- A span with two tags given in reverse key order. -/
def rawTwoTags : RecordedSpan := mkRaw "x" 1 5 0 1 [("b", "1"), ("a", "2")]

/-- A plain enriched tag with no propagation flags. -/
def plainTag (k v : String) : ProcessedTag :=
  { Key := k, Val := v, Caption := "", Link := "", Hidden := false,
    Highlight := false, Inherit := false, Inherited := false,
    PropagateUp := false, CopiedFromChild := false }

/-- The enrichment of `rawTwoTags`: keys sorted ascending. -/
def pTwoTags : processedSpan :=
  { Operation := "x", TraceID := 1, SpanID := 5, ParentSpanID := 0, Start := 0,
    GoroutineID := 1, Tags := [plainTag "a" "2", plainTag "b" "1"] }

/-- Witness for the amended C4 theorem at a concrete span. -/
theorem C4_sorted_before_propagation_witness :
    processSpan rawTwoTags { Traces := [], Stacks := [] } = some pTwoTags ∧
    tagsSortedByKey pTwoTags.Tags = true :=
  ⟨by rfl, C4_sorted_before_propagation rawTwoTags { Traces := [], Stacks := [] }
    pTwoTags (by rfl)⟩

/-! ## C5: the transaction-lock captions -/

theorem findTxnStateList_eq (v : String) :
    ∀ traces : List (List RecordedSpan),
    findTxnStateList v traces =
      match traces.find? (fun tr => tr.any (txnSpanMatches v)) with
      | none => { found := false, curQuery := "" }
      | some tr =>
        match findQuerySpan tr with
        | some q => { found := true, curQuery := lookupTag q.Tags "statement" }
        | none => { found := true, curQuery := "" } := by
  intro traces
  induction traces with
  | nil => rfl
  | cons tr rest ih =>
    show (match findTxnStateInTrace v tr with
      | some st => st
      | none => findTxnStateList v rest) = _
    unfold findTxnStateInTrace
    by_cases hany : tr.any (txnSpanMatches v) = true
    · rw [if_pos hany, List.find?_cons_of_pos _ (by simpa using hany)]
      show _ = (match findQuerySpan tr with
        | some q => ({ found := true, curQuery := lookupTag q.Tags "statement" } : txnState)
        | none => { found := true, curQuery := "" })
      cases findQuerySpan tr <;> rfl
    · rw [if_neg hany, List.find?_cons_of_neg _ (by simpa using hany)]
      exact ih

theorem length_append_str (a b : String) : (a ++ b).length = a.length + b.length := by
  show (a.data ++ b.data).length = a.data.length + b.data.length
  exact List.length_append a.data b.data

theorem running_caption_ne_unknown (s : String) :
    "blocked on txn currently running query: " ++ s ≠ "blocked on unknown transaction" := by
  intro h
  have hlen := congrArg String.length h
  rw [length_append_str] at hlen
  have h40 : ("blocked on txn currently running query: " : String).length = 40 := by decide
  have h30 : ("blocked on unknown transaction" : String).length = 30 := by decide
  omega

/-- C5 (counterexample): the first trace of `snapIdleQuery` contains both a
matching `sql txn` span and a `sql query` span, yet the caption is
`blocked on idle txn`, because the query span's `statement` tag is missing
(looked up as the empty string). -/
theorem C5_counterexample :
    (snapIdleQuery.Traces.map (fun tr =>
      (tr.any (txnSpanMatches "aaaaaaaa"),
       tr.any (fun s => s.Operation == "sql query")))) = [(true, true), (false, false)] ∧
    (processTag "lock_holder_txn" "aaaaaaaa" snapIdleQuery).map (fun t => t.Caption) =
      some "blocked on idle txn" := ⟨rfl, rfl⟩

/-- The caption as a function of the first matching trace and its first
query span. -/
theorem lockCaption_eq (v : String) (snap : SpansSnapshot) :
    lockCaption v snap =
      match snap.Traces.find? (fun tr => tr.any (txnSpanMatches v)) with
      | none => "blocked on unknown transaction"
      | some tr =>
        match findQuerySpan tr with
        | none => "blocked on idle txn"
        | some q =>
          if lookupTag q.Tags "statement" ≠ "" then
            "blocked on txn currently running query: " ++ lookupTag q.Tags "statement"
          else "blocked on idle txn" := by
  unfold lockCaption findTxnState
  rw [findTxnStateList_eq]
  cases hf : snap.Traces.find? (fun tr => tr.any (txnSpanMatches v)) with
  | none => rfl
  | some tr0 =>
    show (if (!(match findQuerySpan tr0 with
          | some s2 => ({ found := true, curQuery := lookupTag s2.Tags "statement" } : txnState)
          | none => { found := true, curQuery := "" }).found) = true then
        "blocked on unknown transaction"
      else if ((match findQuerySpan tr0 with
          | some s2 => ({ found := true, curQuery := lookupTag s2.Tags "statement" } : txnState)
          | none => { found := true, curQuery := "" }).curQuery != "") = true then
        "blocked on txn currently running query: " ++
          (match findQuerySpan tr0 with
          | some s2 => ({ found := true, curQuery := lookupTag s2.Tags "statement" } : txnState)
          | none => { found := true, curQuery := "" }).curQuery
      else "blocked on idle txn") =
      match findQuerySpan tr0 with
      | none => "blocked on idle txn"
      | some q =>
        if lookupTag q.Tags "statement" ≠ "" then
          "blocked on txn currently running query: " ++ lookupTag q.Tags "statement"
        else "blocked on idle txn"
    cases hq : findQuerySpan tr0 with
    | none => rfl
    | some q =>
      show (if (!(true : Bool)) = true then "blocked on unknown transaction"
        else if (lookupTag q.Tags "statement" != "") = true then
          "blocked on txn currently running query: " ++ lookupTag q.Tags "statement"
        else "blocked on idle txn") =
        (if lookupTag q.Tags "statement" ≠ "" then
          "blocked on txn currently running query: " ++ lookupTag q.Tags "statement"
        else "blocked on idle txn")
      rw [if_neg (by decide)]
      by_cases hst : lookupTag q.Tags "statement" = ""
      · simp [hst]
      · simp [hst]

/-- C5 (amended): for a `lock_holder_txn` tag the caption is
`blocked on unknown transaction` iff no trace holds a span with operation
`sql txn` and `txn` tag equal to the value. Otherwise, in the first trace
holding one: the running-query caption is used iff the first `sql query` span
of that trace has a non-empty `statement` tag value, and `blocked on idle txn`
is used when there is no `sql query` span or its `statement` value is empty. -/
theorem C5_caption_characterization :
    ∀ (v : String) (snap : SpansSnapshot) (t : ProcessedTag),
    processTag "lock_holder_txn" v snap = some t →
    ((t.Caption = "blocked on unknown transaction" ↔
       snap.Traces.find? (fun tr => tr.any (txnSpanMatches v)) = none) ∧
     (∀ tr, snap.Traces.find? (fun tr => tr.any (txnSpanMatches v)) = some tr →
       ((∃ q, findQuerySpan tr = some q ∧ lookupTag q.Tags "statement" ≠ "" ∧
          t.Caption = "blocked on txn currently running query: "
            ++ lookupTag q.Tags "statement") ∨
        ((findQuerySpan tr = none ∨
          ∃ q, findQuerySpan tr = some q ∧ lookupTag q.Tags "statement" = "") ∧
          t.Caption = "blocked on idle txn")))) := by
  intro v snap t h
  rw [processTag_eq, if_pos (by rfl)] at h
  by_cases h8 : 8 ≤ v.length
  · rw [if_pos h8] at h
    obtain rfl := (Option.some.inj h).symm
    show ((lockCaption v snap = "blocked on unknown transaction" ↔
       snap.Traces.find? (fun tr => tr.any (txnSpanMatches v)) = none) ∧
     (∀ tr, snap.Traces.find? (fun tr => tr.any (txnSpanMatches v)) = some tr →
       ((∃ q, findQuerySpan tr = some q ∧ lookupTag q.Tags "statement" ≠ "" ∧
          lockCaption v snap = "blocked on txn currently running query: "
            ++ lookupTag q.Tags "statement") ∨
        ((findQuerySpan tr = none ∨
          ∃ q, findQuerySpan tr = some q ∧ lookupTag q.Tags "statement" = "") ∧
          lockCaption v snap = "blocked on idle txn"))))
    cases hf : snap.Traces.find? (fun tr => tr.any (txnSpanMatches v)) with
    | none =>
      have hcap : lockCaption v snap = "blocked on unknown transaction" := by
        rw [lockCaption_eq, hf]
      constructor
      · simp [hcap]
      · intro tr htr
        exact absurd htr (by simp)
    | some tr0 =>
      cases hq : findQuerySpan tr0 with
      | none =>
        have hcap : lockCaption v snap = "blocked on idle txn" := by
          rw [lockCaption_eq, hf]
          show (match findQuerySpan tr0 with
            | none => "blocked on idle txn"
            | some q =>
              if lookupTag q.Tags "statement" ≠ "" then
                "blocked on txn currently running query: " ++ lookupTag q.Tags "statement"
              else "blocked on idle txn") = "blocked on idle txn"
          rw [hq]
        rw [hcap]
        constructor
        · constructor
          · intro hcap2
            exact absurd hcap2 (by decide)
          · intro hnone
            exact absurd hnone (by simp)
        · intro tr htr
          obtain rfl := Option.some.inj htr
          exact Or.inr ⟨Or.inl hq, rfl⟩
      | some q =>
        by_cases hst : lookupTag q.Tags "statement" = ""
        · have hcap : lockCaption v snap = "blocked on idle txn" := by
            rw [lockCaption_eq, hf]
            show (match findQuerySpan tr0 with
              | none => "blocked on idle txn"
              | some q =>
                if lookupTag q.Tags "statement" ≠ "" then
                  "blocked on txn currently running query: " ++ lookupTag q.Tags "statement"
                else "blocked on idle txn") = "blocked on idle txn"
            rw [hq]
            show (if lookupTag q.Tags "statement" ≠ "" then
                "blocked on txn currently running query: " ++ lookupTag q.Tags "statement"
              else "blocked on idle txn") = "blocked on idle txn"
            rw [if_neg (by simpa using hst)]
          rw [hcap]
          constructor
          · constructor
            · intro hcap2
              exact absurd hcap2 (by decide)
            · intro hnone
              exact absurd hnone (by simp)
          · intro tr htr
            obtain rfl := Option.some.inj htr
            exact Or.inr ⟨Or.inr ⟨q, hq, hst⟩, rfl⟩
        · have hcap : lockCaption v snap =
              "blocked on txn currently running query: " ++ lookupTag q.Tags "statement" := by
            rw [lockCaption_eq, hf]
            show (match findQuerySpan tr0 with
              | none => "blocked on idle txn"
              | some q =>
                if lookupTag q.Tags "statement" ≠ "" then
                  "blocked on txn currently running query: " ++ lookupTag q.Tags "statement"
                else "blocked on idle txn") = _
            rw [hq]
            show (if lookupTag q.Tags "statement" ≠ "" then
                "blocked on txn currently running query: " ++ lookupTag q.Tags "statement"
              else "blocked on idle txn") = _
            rw [if_pos hst]
          rw [hcap]
          constructor
          · constructor
            · intro hcap2
              exact absurd hcap2 (running_caption_ne_unknown _)
            · intro hnone
              exact absurd hnone (by simp)
          · intro tr htr
            obtain rfl := Option.some.inj htr
            exact Or.inl ⟨q, hq, hst, rfl⟩
  · rw [if_neg h8] at h
    exact absurd h (by simp)

/-- The enrichment of the blocked span's tag in `snapIdleQuery`. -/
def tagIdle : ProcessedTag :=
  { Key := "lock_holder_txn", Val := "aaaaaaaa", Caption := "blocked on idle txn",
    Link := "aaaaaaaa", Hidden := false, Highlight := true, Inherit := false,
    Inherited := false, PropagateUp := true, CopiedFromChild := false }

/-- Witness for the amended C5 theorem at the concrete snapshot `snapIdleQuery`. -/
theorem C5_caption_characterization_witness :
    processTag "lock_holder_txn" "aaaaaaaa" snapIdleQuery = some tagIdle ∧
    ((tagIdle.Caption = "blocked on unknown transaction" ↔
       snapIdleQuery.Traces.find? (fun tr => tr.any (txnSpanMatches "aaaaaaaa")) = none) ∧
     (∀ tr, snapIdleQuery.Traces.find?
          (fun tr => tr.any (txnSpanMatches "aaaaaaaa")) = some tr →
       ((∃ q, findQuerySpan tr = some q ∧ lookupTag q.Tags "statement" ≠ "" ∧
          tagIdle.Caption = "blocked on txn currently running query: "
            ++ lookupTag q.Tags "statement") ∨
        ((findQuerySpan tr = none ∨
          ∃ q, findQuerySpan tr = some q ∧ lookupTag q.Tags "statement" = "") ∧
          tagIdle.Caption = "blocked on idle txn")))) :=
  ⟨by rfl, C5_caption_characterization "aaaaaaaa" snapIdleQuery tagIdle (by rfl)⟩

/-! ## C6: upward completeness -/

theorem upSpanTags_chain_some {m : List (Nat × Nat)} {fuel : Nat} {sp : processedSpan} :
    ∀ {ts : List ProcessedTag} {arr arr' : List processedSpan},
    upSpanTags m fuel sp ts arr = some arr' →
    ∀ t ∈ ts, (t.PropagateUp && !t.CopiedFromChild) = true →
    ∃ ch, chainIdxs m arr fuel sp.ParentSpanID = some ch := by
  intro ts
  induction ts with
  | nil => intro arr arr' h t ht _; exact absurd ht (by simp)
  | cons t0 rest ih =>
    intro arr arr' h t ht helig
    rw [show upSpanTags m fuel sp (t0 :: rest) arr =
        if !t0.PropagateUp || t0.CopiedFromChild then upSpanTags m fuel sp rest arr
        else match propagateTagUpwards m fuel t0 sp arr with
          | none => none
          | some arr2 => upSpanTags m fuel sp rest arr2 from rfl] at h
    by_cases hc : (!t0.PropagateUp || t0.CopiedFromChild) = true
    · rw [if_pos hc] at h
      rcases List.mem_cons.mp ht with rfl | hmem
      · exfalso
        cases hp : t.PropagateUp <;> cases hq : t.CopiedFromChild <;> simp_all
      · exact ih h t hmem helig
    · rw [if_neg hc] at h
      unfold propagateTagUpwards at h
      rw [upLoop_char] at h
      cases hch : chainIdxs m arr fuel sp.ParentSpanID with
      | none => rw [hch] at h; exact absurd h (by simp)
      | some ch => exact ⟨ch, rfl⟩

theorem upwardPassFrom_chain_some (m : List (Nat × Nat)) (fuel : Nat) :
    ∀ (steps i : Nat) (arr arr' : List processedSpan),
    upwardPassFrom m fuel i steps arr = some arr' →
    ∀ i2, i ≤ i2 → i2 < i + steps → ∀ s, arr[i2]? = some s →
    ∀ t ∈ s.Tags, (t.PropagateUp && !t.CopiedFromChild) = true →
    ∃ ch, chainIdxs m arr fuel s.ParentSpanID = some ch := by
  intro steps
  induction steps with
  | zero => intro i arr arr' h i2 h1 h2; omega
  | succ steps ih =>
    intro i arr arr' h i2 h1 h2 s hs t ht helig
    rw [show upwardPassFrom m fuel i (steps + 1) arr =
        match arr[i]? with
        | none => some arr
        | some s0 =>
          match upSpanTags m fuel s0 s0.Tags arr with
          | none => none
          | some arr2 => upwardPassFrom m fuel (i + 1) steps arr2 from rfl] at h
    cases hi : arr[i]? with
    | none =>
      exfalso
      have : arr[i2]? = none := getElem?_eq_none_of_le hi h1
      rw [this] at hs
      exact absurd hs (by simp)
    | some s0 =>
      rw [hi] at h
      have h2d : (match upSpanTags m fuel s0 s0.Tags arr with
          | none => none
          | some arr2 => upwardPassFrom m fuel (i + 1) steps arr2) = some arr' := h
      cases hu : upSpanTags m fuel s0 s0.Tags arr with
      | none => rw [hu] at h2d; exact absurd h2d (by simp)
      | some arr1 =>
        rw [hu] at h2d
        have h3 : upwardPassFrom m fuel (i + 1) steps arr1 = some arr' := h2d
        by_cases hii : i2 = i
        · subst hii
          rw [hi] at hs
          obtain rfl := Option.some.inj hs
          exact upSpanTags_chain_some hu t ht helig
        · have hle : i + 1 ≤ i2 := by omega
          have hchar := upSpanTags_char m fuel s0 s0.Tags arr arr1 hu i2
          rw [hs] at hchar
          obtain ⟨ch, hch⟩ := ih (i + 1) arr1 arr' h3 i2 hle (by omega) _ hchar t
            (List.mem_append.mpr (Or.inl ht)) helig
          refine ⟨ch, ?_⟩
          rw [← chainIdxs_ext (upSpanTags_extends hu) m fuel]
          exact hch

theorem copiesForUp_mem_of {ts : List ProcessedTag} {t : ProcessedTag} {n : Nat}
    (ht : t ∈ ts) (hn : 1 ≤ n) : upCopy t ∈ copiesForUp ts n := by
  induction ts with
  | nil => exact absurd ht (by simp)
  | cons t0 rest ih =>
    rcases List.mem_cons.mp ht with rfl | hmem
    · exact List.mem_append.mpr (Or.inl (by
        apply List.mem_replicate.mpr
        exact ⟨by omega, rfl⟩))
    · exact List.mem_append.mpr (Or.inr (ih hmem))

theorem upContribFrom_mem_of {m : List (Nat × Nat)} {base : List processedSpan}
    {fuel : Nat} :
    ∀ (steps i0 : Nat) {i j : Nat} {s : processedSpan} {t : ProcessedTag},
    i0 ≤ i → i < i0 + steps → base[i]? = some s →
    t ∈ eligUpTags s.Tags → 1 ≤ chCount m base fuel s.ParentSpanID j →
    upCopy t ∈ upContribFrom m base fuel i0 steps j := by
  intro steps
  induction steps with
  | zero => intro i0 i j s t h1 h2; omega
  | succ steps ih =>
    intro i0 i j s t h1 h2 hs ht hn
    simp only [upContribFrom]
    by_cases hii : i = i0
    · subst hii
      rw [hs]
      exact List.mem_append.mpr (Or.inl (copiesForUp_mem_of ht hn))
    · exact List.mem_append.mpr (Or.inr (ih (i0 + 1) (by omega) (by omega) hs ht hn))

theorem filter_eq_nil_of_flags {p : ProcessedTag → Bool} {ts : List ProcessedTag}
    (h : ∀ t ∈ ts, p t = false) : ts.filter p = [] := by
  rw [List.filter_eq_nil_iff]
  intro a ha
  rw [h a ha]
  simp

theorem filter_eq_self_of_flags {p : ProcessedTag → Bool} {ts : List ProcessedTag}
    (h : ∀ t ∈ ts, p t = true) : ts.filter p = ts :=
  List.filter_eq_self.mpr h

/-- C6: upward completeness. For a successful run, with `ps` the enriched
span table: (a) every output span's tags are its enriched tags followed by
exactly the upward contributions (one copy `upCopy t` per span `i` whose
ancestor chain passes through `j`, per eligible original tag `t` of `i`, and
nothing else) followed by the downward contributions; (b) the tags marked
`CopiedFromChild` in the output are exactly those upward contributions — so
no span outside the ancestor chains receives an upward copy; (c) for every
span `i` with an original tag `t` with `PropagateUp` set, the parent-id chain
from `i` terminates at the first id absent from the span index, visits no
index twice, never returns to `i`, and every chain member's output span
carries the copy `upCopy t` (with `CopiedFromChild = true`, `Inherit = false`). -/
theorem C6_upward_completeness :
    ∀ (snap : SpansSnapshot) (out : ProcessedSnapshot) (ps : List processedSpan),
    ProcessSnapshot snap = some out →
    processSpans (flattenTraces snap.Traces) snap = some ps →
    ((∀ j, out.Spans[j]? = (ps[j]?).map (fun s : processedSpan =>
        { s with Tags := s.Tags
            ++ upContribFrom (mkSpansMap ps) ps (ps.length + 1) 0 ps.length j
            ++ downContribFrom (childrenIdxs ps) ps (ps.length + 1) 0 ps.length j })) ∧
     (∀ (j : Nat) (sj : processedSpan), out.Spans[j]? = some sj →
        sj.Tags.filter (fun t => t.CopiedFromChild) =
          upContribFrom (mkSpansMap ps) ps (ps.length + 1) 0 ps.length j) ∧
     (∀ (i : Nat) (s : processedSpan), ps[i]? = some s →
      ∀ t ∈ s.Tags, t.PropagateUp = true → t.CopiedFromChild = false →
      ∃ ch, chainIdxs (mkSpansMap ps) ps (ps.length + 1) s.ParentSpanID = some ch ∧
        ch.Nodup ∧ i ∉ ch ∧
        (∀ j ∈ ch, ∀ sj, out.Spans[j]? = some sj → upCopy t ∈ sj.Tags))) := by
  intro snap out ps h hps
  obtain ⟨ps2, hps2, hlen, hstk, hupne, hchar⟩ := ProcessSnapshot_char h
  rw [hps] at hps2
  obtain rfl := Option.some.inj hps2
  refine ⟨hchar, ?_, ?_⟩
  · intro j sj hsj
    rw [hchar j, Option.map_eq_some'] at hsj
    obtain ⟨s, hs, rfl⟩ := hsj
    show (s.Tags ++ upContribFrom (mkSpansMap ps) ps (ps.length + 1) 0 ps.length j
        ++ downContribFrom (childrenIdxs ps) ps (ps.length + 1) 0 ps.length j).filter
        (fun t => t.CopiedFromChild) = _
    rw [List.filter_append, List.filter_append]
    rw [filter_eq_nil_of_flags (fun t ht => (ps_tags_flags hps j s hs t ht).1)]
    rw [filter_eq_self_of_flags (fun t ht => upContribFrom_mem ht)]
    rw [filter_eq_nil_of_flags (fun t ht => by
      obtain ⟨i2, s2, t0, hs2, ht0, rfl⟩ := mem_downContribFrom_src ht
      exact (ps_tags_flags hps i2 s2 hs2 t0 ht0).1)]
    rw [List.append_nil, List.nil_append]
  · intro i s hs t ht hp hc
    have hel : (t.PropagateUp && !t.CopiedFromChild) = true := by rw [hp, hc]; rfl
    cases hup : upwardPass (mkSpansMap ps) (ps.length + 1) ps with
    | none => exact absurd hup hupne
    | some arr1 =>
      have hrange : i < ps.length := by
        by_contra hge
        rw [List.getElem?_eq_none (by omega)] at hs
        exact absurd hs (by simp)
      obtain ⟨ch, hch⟩ := upwardPassFrom_chain_some (mkSpansMap ps) (ps.length + 1)
        ps.length 0 ps arr1 hup i (by omega) (by omega) s hs t ht hel
      refine ⟨ch, hch, chainIdxs_nodup hch, chainIdxs_not_mem_start hs hch, ?_⟩
      intro j hj sj hsj
      rw [hchar j, Option.map_eq_some'] at hsj
      obtain ⟨sj0, hsj0, rfl⟩ := hsj
      show upCopy t ∈ sj0.Tags ++ upContribFrom (mkSpansMap ps) ps (ps.length + 1)
        0 ps.length j ++ downContribFrom (childrenIdxs ps) ps (ps.length + 1) 0
        ps.length j
      refine List.mem_append.mpr (Or.inl (List.mem_append.mpr (Or.inr ?_)))
      apply upContribFrom_mem_of ps.length 0 (by omega) (by omega) hs
        (List.mem_filter.mpr ⟨ht, hel⟩)
      show 1 ≤ (match chainIdxs (mkSpansMap ps) ps (ps.length + 1) s.ParentSpanID with
        | none => 0
        | some ch => ch.count j)
      rw [hch]
      exact List.count_pos_iff.mpr hj

/-- The enriched span table of `snapFanOut`. -/
def psFanOut : List processedSpan :=
  [{ Operation := "p", TraceID := 1, SpanID := 1, ParentSpanID := 0, Start := 0,
     GoroutineID := 1, Tags := [] },
   { Operation := "a", TraceID := 1, SpanID := 2, ParentSpanID := 1, Start := 0,
     GoroutineID := 1, Tags := [stmtTag "S"] },
   { Operation := "b", TraceID := 1, SpanID := 3, ParentSpanID := 1, Start := 0,
     GoroutineID := 1, Tags := [] }]

/-- Witness for C6 at the concrete snapshot `snapFanOut`. -/
theorem C6_upward_completeness_witness :
    (∀ j, outFanOut.Spans[j]? = (psFanOut[j]?).map (fun s : processedSpan =>
        { s with Tags := (s.Tags
            ++ upContribFrom (mkSpansMap psFanOut) psFanOut (psFanOut.length + 1)
                0 psFanOut.length j
            ++ downContribFrom (childrenIdxs psFanOut) psFanOut (psFanOut.length + 1)
                0 psFanOut.length j) })) ∧
    (∀ (j : Nat) (sj : processedSpan), outFanOut.Spans[j]? = some sj →
        sj.Tags.filter (fun t => t.CopiedFromChild) =
          upContribFrom (mkSpansMap psFanOut) psFanOut (psFanOut.length + 1)
            0 psFanOut.length j) ∧
    (∀ (i : Nat) (s : processedSpan), psFanOut[i]? = some s →
      ∀ t ∈ s.Tags, t.PropagateUp = true → t.CopiedFromChild = false →
      ∃ ch, chainIdxs (mkSpansMap psFanOut) psFanOut (psFanOut.length + 1)
          s.ParentSpanID = some ch ∧
        ch.Nodup ∧ i ∉ ch ∧
        (∀ j ∈ ch, ∀ sj, outFanOut.Spans[j]? = some sj → upCopy t ∈ sj.Tags)) :=
  C6_upward_completeness snapFanOut outFanOut psFanOut (by rfl) (by rfl)

/-! ## C10: determinism despite unordered tag maps -/

/-- Two raw spans that agree on all fields and whose tag entry lists are
permutations of one another (with unique keys): the same span, with its Go
tag map iterated in two different orders. -/
def rawSpanTagPerm (x y : RecordedSpan) : Prop :=
  x.Operation = y.Operation ∧ x.TraceID = y.TraceID ∧ x.SpanID = y.SpanID ∧
  x.ParentSpanID = y.ParentSpanID ∧ x.StartTime = y.StartTime ∧
  x.GoroutineID = y.GoroutineID ∧ x.Tags.Perm y.Tags ∧ (x.Tags.map Prod.fst).Nodup

/-- Two snapshots describing the same data, with each span's tag map iterated
in two different orders. -/
def snapTagPerm (s1 s2 : SpansSnapshot) : Prop :=
  List.Forall₂ (List.Forall₂ rawSpanTagPerm) s1.Traces s2.Traces ∧ s1.Stacks = s2.Stacks

theorem lookupTag_eq_of_mem {tags : List (String × String)} {k v : String}
    (hmem : (k, v) ∈ tags) (hnd : (tags.map Prod.fst).Nodup) :
    lookupTag tags k = v := by
  induction tags with
  | nil => exact absurd hmem (by simp)
  | cons p rest ih =>
    simp only [List.map_cons, List.nodup_cons] at hnd
    rcases List.mem_cons.mp hmem with rfl | hmem'
    · unfold lookupTag
      rw [List.find?_cons_of_pos _ (by simp)]
    · have hne : p.1 ≠ k := by
        intro he
        exact hnd.1 (by
          rw [he]
          exact List.mem_map.mpr ⟨(k, v), hmem', rfl⟩)
      unfold lookupTag
      rw [List.find?_cons_of_neg _ (by simpa using hne)]
      exact ih hmem' hnd.2

theorem lookupTag_eq_empty_of_not_mem {tags : List (String × String)} {k : String}
    (h : k ∉ tags.map Prod.fst) : lookupTag tags k = "" := by
  unfold lookupTag
  cases hf : tags.find? (fun p => p.1 == k) with
  | none => rfl
  | some p =>
    exfalso
    have hp := List.find?_some hf
    have hpm := List.mem_of_find?_eq_some hf
    exact h (List.mem_map.mpr ⟨p, hpm, by simpa using hp⟩)

theorem lookupTag_perm {a b : List (String × String)} (hperm : a.Perm b)
    (hnd : (a.map Prod.fst).Nodup) (k : String) :
    lookupTag a k = lookupTag b k := by
  have hndb : (b.map Prod.fst).Nodup := ((hperm.map Prod.fst).nodup_iff).mp hnd
  by_cases hk : k ∈ a.map Prod.fst
  · obtain ⟨p, hpmem, hpk⟩ := List.mem_map.mp hk
    obtain ⟨k0, v⟩ := p
    obtain rfl := hpk
    rw [lookupTag_eq_of_mem hpmem hnd, lookupTag_eq_of_mem (hperm.mem_iff.mp hpmem) hndb]
  · rw [lookupTag_eq_empty_of_not_mem hk,
      lookupTag_eq_empty_of_not_mem (fun hkb => hk (((hperm.map Prod.fst).mem_iff).mpr hkb))]

theorem rawSpanTagPerm_lookup {x y : RecordedSpan} (h : rawSpanTagPerm x y)
    (k : String) : lookupTag x.Tags k = lookupTag y.Tags k :=
  lookupTag_perm h.2.2.2.2.2.2.1 h.2.2.2.2.2.2.2 k

theorem txnSpanMatches_congr {x y : RecordedSpan} (h : rawSpanTagPerm x y)
    (v : String) : txnSpanMatches v x = txnSpanMatches v y := by
  unfold txnSpanMatches
  rw [h.1, rawSpanTagPerm_lookup h "txn"]

theorem trace_any_congr {tr1 tr2 : List RecordedSpan}
    (h : List.Forall₂ rawSpanTagPerm tr1 tr2) (v : String) :
    tr1.any (txnSpanMatches v) = tr2.any (txnSpanMatches v) := by
  induction h with
  | nil => rfl
  | cons hxy hrest ih =>
    simp only [List.any_cons]
    rw [txnSpanMatches_congr hxy v, ih]

theorem findQuerySpan_congr {tr1 tr2 : List RecordedSpan}
    (h : List.Forall₂ rawSpanTagPerm tr1 tr2) :
    (findQuerySpan tr1 = none ∧ findQuerySpan tr2 = none) ∨
    (∃ q1 q2, findQuerySpan tr1 = some q1 ∧ findQuerySpan tr2 = some q2 ∧
      rawSpanTagPerm q1 q2) := by
  induction h with
  | nil => exact Or.inl ⟨rfl, rfl⟩
  | cons hxy hrest ih =>
    rename_i x y l1 l2
    by_cases hop : (x.Operation == "sql query") = true
    · refine Or.inr ⟨x, y, ?_, ?_, hxy⟩
      · show List.find? (fun s2 => s2.Operation == "sql query") (x :: l1) = some x
        exact List.find?_cons_of_pos _ hop
      · show List.find? (fun s2 => s2.Operation == "sql query") (y :: l2) = some y
        exact List.find?_cons_of_pos _ (by show (y.Operation == _) = true; rw [← hxy.1]; exact hop)
    · have hx : findQuerySpan (x :: l1) = findQuerySpan l1 :=
        List.find?_cons_of_neg _ hop
      have hy : findQuerySpan (y :: l2) = findQuerySpan l2 :=
        List.find?_cons_of_neg _ (by show ¬(y.Operation == _) = true; rw [← hxy.1]; exact hop)
      rw [hx, hy]
      exact ih

theorem findTxnStateInTrace_congr {tr1 tr2 : List RecordedSpan}
    (h : List.Forall₂ rawSpanTagPerm tr1 tr2) (v : String) :
    findTxnStateInTrace v tr1 = findTxnStateInTrace v tr2 := by
  unfold findTxnStateInTrace
  rw [trace_any_congr h v]
  by_cases hany : tr2.any (txnSpanMatches v) = true
  · rw [if_pos hany, if_pos hany]
    rcases findQuerySpan_congr h with ⟨h1, h2⟩ | ⟨q1, q2, h1, h2, hq⟩
    · rw [h1, h2]
    · rw [h1, h2]
      show some ({ found := true, curQuery := lookupTag q1.Tags "statement" } : txnState) =
        some ({ found := true, curQuery := lookupTag q2.Tags "statement" } : txnState)
      rw [rawSpanTagPerm_lookup hq "statement"]
  · rw [if_neg hany, if_neg hany]

theorem findTxnStateList_congr (v : String) {ts1 ts2 : List (List RecordedSpan)}
    (htr : List.Forall₂ (List.Forall₂ rawSpanTagPerm) ts1 ts2) :
    findTxnStateList v ts1 = findTxnStateList v ts2 := by
  induction htr with
  | nil => rfl
  | cons hxy hrest ih =>
    simp only [findTxnStateList]
    rw [findTxnStateInTrace_congr hxy v, ih]

theorem findTxnState_congr {s1 s2 : SpansSnapshot} (h : snapTagPerm s1 s2)
    (v : String) : findTxnState v s1 = findTxnState v s2 :=
  findTxnStateList_congr v h.1

theorem processTag_congr {s1 s2 : SpansSnapshot} (h : snapTagPerm s1 s2)
    (k v : String) : processTag k v s1 = processTag k v s2 := by
  rw [processTag_eq, processTag_eq]
  have hcap : lockCaption v s1 = lockCaption v s2 := by
    unfold lockCaption
    rw [findTxnState_congr h v]
  rw [hcap]

theorem processTagList_congr {s1 s2 : SpansSnapshot} (h : snapTagPerm s1 s2)
    {tags1 tags2 : List (String × String)} (hl : ∀ k, lookupTag tags1 k = lookupTag tags2 k) :
    ∀ ks, processTagList ks tags1 s1 = processTagList ks tags2 s2 := by
  intro ks
  induction ks with
  | nil => rfl
  | cons k rest ih =>
    unfold processTagList
    rw [hl k, processTag_congr h k (lookupTag tags2 k), ih]

theorem processSpan_congr {s1 s2 : SpansSnapshot} (h : snapTagPerm s1 s2)
    {x y : RecordedSpan} (hxy : rawSpanTagPerm x y) :
    processSpan x s1 = processSpan y s2 := by
  unfold processSpan
  have hkeys : sortStrings (x.Tags.map Prod.fst) = sortStrings (y.Tags.map Prod.fst) :=
    List.eq_of_perm_of_sorted
      ((sortStrings_perm _).trans ((hxy.2.2.2.2.2.2.1.map Prod.fst).trans
        (sortStrings_perm _).symm))
      (sortStrings_sorted _) (sortStrings_sorted _)
  have htl : processTagList (sortStrings (y.Tags.map Prod.fst)) x.Tags s1 =
      processTagList (sortStrings (y.Tags.map Prod.fst)) y.Tags s2 :=
    processTagList_congr h (fun k => lookupTag_perm hxy.2.2.2.2.2.2.1
      hxy.2.2.2.2.2.2.2 k) (sortStrings (y.Tags.map Prod.fst))
  rw [hkeys]
  simp only [htl, hxy.1, hxy.2.1, hxy.2.2.1, hxy.2.2.2.1, hxy.2.2.2.2.1,
    hxy.2.2.2.2.2.1]

theorem flattenTraces_forall₂ {ts1 ts2 : List (List RecordedSpan)}
    (h : List.Forall₂ (List.Forall₂ rawSpanTagPerm) ts1 ts2) :
    List.Forall₂ rawSpanTagPerm (flattenTraces ts1) (flattenTraces ts2) := by
  induction h with
  | nil => exact List.Forall₂.nil
  | cons hxy hrest ih => exact List.rel_append hxy ih

theorem processSpans_congr {s1 s2 : SpansSnapshot} (h : snapTagPerm s1 s2) :
    ∀ {spans1 spans2 : List RecordedSpan},
    List.Forall₂ rawSpanTagPerm spans1 spans2 →
    processSpans spans1 s1 = processSpans spans2 s2 := by
  intro spans1 spans2 hf
  induction hf with
  | nil => rfl
  | cons hxy hrest ih =>
    unfold processSpans
    rw [processSpan_congr h hxy, ih]

theorem forall₂_map_gid {spans1 spans2 : List RecordedSpan}
    (h : List.Forall₂ rawSpanTagPerm spans1 spans2) :
    spans1.map RecordedSpan.GoroutineID = spans2.map RecordedSpan.GoroutineID := by
  induction h with
  | nil => rfl
  | cons hxy hrest ih =>
    simp only [List.map_cons]
    rw [hxy.2.2.2.2.2.1, ih]

theorem addMissingStacks_gid_congr :
    ∀ {spans1 spans2 : List RecordedSpan},
    spans1.map RecordedSpan.GoroutineID = spans2.map RecordedSpan.GoroutineID →
    ∀ stks, addMissingStacks stks spans1 = addMissingStacks stks spans2 := by
  intro spans1
  induction spans1 with
  | nil =>
    intro spans2 hmap stks
    cases spans2 with
    | nil => rfl
    | cons y ys => exact absurd hmap (by simp)
  | cons x xs ih =>
    intro spans2 hmap stks
    cases spans2 with
    | nil => exact absurd hmap (by simp)
    | cons y ys =>
      simp only [List.map_cons, List.cons.injEq] at hmap
      obtain ⟨hg, hrest⟩ := hmap
      unfold addMissingStacks
      rw [hg]
      cases lookupStack stks y.GoroutineID with
      | some w => exact ih hrest stks
      | none => exact ih hrest _

/-- C10: `ProcessSnapshot` is deterministic over the unordered tag maps: two
raw snapshots that agree up to a permutation of each span's tag entries (keys
unique per span) produce identical outputs, including the order of every tag
list, because the keys are sorted before conversion. -/
theorem C10_determinism :
    ∀ (s1 s2 : SpansSnapshot), snapTagPerm s1 s2 →
    ProcessSnapshot s1 = ProcessSnapshot s2 := by
  intro s1 s2 h
  have hspans := flattenTraces_forall₂ h.1
  have hps : processSpans (flattenTraces s1.Traces) s1 =
      processSpans (flattenTraces s2.Traces) s2 := processSpans_congr h hspans
  have hstk : addMissingStacks s1.Stacks (flattenTraces s1.Traces) =
      addMissingStacks s2.Stacks (flattenTraces s2.Traces) := by
    rw [h.2]
    exact addMissingStacks_gid_congr (forall₂_map_gid hspans) s2.Stacks
  unfold ProcessSnapshot
  simp only [hps, hstk]

/-- One span whose two tags are listed in sorted order. -/
def snapPermA : SpansSnapshot :=
  { Traces := [[mkRaw "op" 1 1 0 1 [("a", "1"), ("b", "2")]]], Stacks := [] }

/-- The same span with its tag map iterated in the opposite order. -/
def snapPermB : SpansSnapshot :=
  { Traces := [[mkRaw "op" 1 1 0 1 [("b", "2"), ("a", "1")]]], Stacks := [] }

theorem snapPermAB : snapTagPerm snapPermA snapPermB :=
  ⟨List.Forall₂.cons
    (List.Forall₂.cons
      ⟨rfl, rfl, rfl, rfl, rfl, rfl, List.Perm.swap _ _ _, by decide⟩
      List.Forall₂.nil)
    List.Forall₂.nil, rfl⟩

/-- Witness for C10: two concrete one-span snapshots whose tag entries are
listed in opposite orders produce identical processed outputs. -/
theorem C10_determinism_witness :
    snapTagPerm snapPermA snapPermB ∧ ProcessSnapshot snapPermA = ProcessSnapshot snapPermB :=
  ⟨snapPermAB, C10_determinism snapPermA snapPermB snapPermAB⟩

/-! ## C7: downward completeness -/

/-- Index `j`'s span is a child of index `i`'s span: the parent id recorded on
`j` equals the span id recorded on `i` (an edge of `childrenMap`). -/
def childIdxRel (ps : List processedSpan) (i j : Nat) : Prop :=
  ∃ si sj, ps[i]? = some si ∧ ps[j]? = some sj ∧ sj.ParentSpanID = si.SpanID

theorem childrenIdxs_mem {arr : List processedSpan} {pid j : Nat} :
    j ∈ childrenIdxs arr pid ↔ ∃ sj, arr[j]? = some sj ∧ sj.ParentSpanID = pid := by
  unfold childrenIdxs
  constructor
  · intro h
    obtain ⟨p, hp, hpf⟩ := List.mem_map.mp h
    obtain ⟨hpe, hpq⟩ := List.mem_filter.mp hp
    obtain ⟨i, x⟩ := p
    obtain rfl : i = j := hpf
    exact ⟨x, List.mem_enum_iff_getElem?.mp hpe, by simpa using hpq⟩
  · intro h
    obtain ⟨sj, hsj, hpar⟩ := h
    apply List.mem_map.mpr
    refine ⟨(j, sj), ?_, rfl⟩
    apply List.mem_filter.mpr
    exact ⟨List.mk_mem_enum_iff_getElem?.mpr hsj, by simp [hpar]⟩

theorem childrenIdxs_nodup (arr : List processedSpan) (pid : Nat) :
    (childrenIdxs arr pid).Nodup := by
  unfold childrenIdxs
  exact ((List.filter_sublist _).map Prod.fst).nodup (List.nodup_enum_map_fst arr)

theorem spanId_idx_inj {ps : List processedSpan}
    (hids : (ps.map processedSpan.SpanID).Nodup)
    {a b : Nat} {sa sb : processedSpan} (ha : ps[a]? = some sa) (hb : ps[b]? = some sb)
    (hid : sa.SpanID = sb.SpanID) : a = b := by
  have hal : a < ps.length := by
    by_contra hge
    rw [List.getElem?_eq_none (by omega)] at ha
    exact absurd ha (by simp)
  have hbl : b < ps.length := by
    by_contra hge
    rw [List.getElem?_eq_none (by omega)] at hb
    exact absurd hb (by simp)
  have hal2 : a < (ps.map processedSpan.SpanID).length := by simpa using hal
  have hbl2 : b < (ps.map processedSpan.SpanID).length := by simpa using hbl
  have hma : (ps.map processedSpan.SpanID)[a]? = some sa.SpanID := by
    rw [List.getElem?_map, ha]
    rfl
  have hmb : (ps.map processedSpan.SpanID)[b]? = some sb.SpanID := by
    rw [List.getElem?_map, hb]
    rfl
  have hga : (ps.map processedSpan.SpanID)[a] = sa.SpanID := by
    rw [List.getElem?_eq_getElem hal2] at hma
    exact Option.some.inj hma
  have hgb : (ps.map processedSpan.SpanID)[b] = sb.SpanID := by
    rw [List.getElem?_eq_getElem hbl2] at hmb
    exact Option.some.inj hmb
  have hfin : (⟨a, hal2⟩ : Fin (ps.map processedSpan.SpanID).length) = ⟨b, hbl2⟩ :=
    (hids.get_inj_iff).mp (by
      rw [List.get_eq_getElem, List.get_eq_getElem]
      show (ps.map processedSpan.SpanID)[a] = (ps.map processedSpan.SpanID)[b]
      rw [hga, hgb, hid])
  exact congrArg Fin.val hfin

theorem downVisits_mono (children : Nat → List Nat) (base : List processedSpan) :
    ∀ (fuel : Nat) (l vs : List Nat),
    downVisits children base fuel l = some vs →
    downVisits children base (fuel + 1) l = some vs := by
  intro fuel
  induction fuel using Nat.strong_induction_on with
  | _ fuel ihf =>
    intro l
    induction l with
    | nil =>
      intro vs h
      rw [downVisits_nil] at h
      rw [downVisits_nil]
      exact h
    | cons i rest ihl =>
      intro vs h
      cases hi : base[i]? with
      | none =>
        rw [downVisits_cons_invalid children fuel rest hi] at h
        rw [downVisits_cons_invalid children (fuel + 1) rest hi]
        exact ihl vs h
      | some c =>
        cases fuel with
        | zero =>
          rw [downVisits_cons_zero children rest hi] at h
          exact absurd h (by simp)
        | succ f =>
          rw [downVisits_cons_succ children f rest hi] at h
          rw [downVisits_cons_succ children (f + 1) rest hi]
          cases hd : downVisits children base f (children c.SpanID) with
          | none => rw [hd] at h; exact absurd h (by simp)
          | some d =>
            rw [hd] at h
            cases hr : downVisits children base (f + 1) rest with
            | none => rw [hr] at h; exact absurd h (by simp)
            | some r =>
              rw [hr] at h
              rw [ihf f (Nat.lt_succ_self f) (children c.SpanID) d hd, ihl r hr]
              exact h

theorem downVisits_le (children : Nat → List Nat) (base : List processedSpan)
    (fuel : Nat) (l vs : List Nat) (h : downVisits children base fuel l = some vs) :
    ∀ d, downVisits children base (fuel + d) l = some vs := by
  intro d
  induction d with
  | zero => exact h
  | succ d ih => exact downVisits_mono children base (fuel + d) l vs ih

theorem downVisits_det {children : Nat → List Nat} {base : List processedSpan}
    {f1 f2 : Nat} {l v1 v2 : List Nat} (hle : f1 ≤ f2)
    (h1 : downVisits children base f1 l = some v1)
    (h2 : downVisits children base f2 l = some v2) : v1 = v2 := by
  have h3 := downVisits_le children base f1 l v1 h1 (f2 - f1)
  rw [Nat.add_sub_cancel' hle] at h3
  rw [h3] at h2
  exact Option.some.inj h2

theorem downVisits_mem_of (children : Nat → List Nat) (base : List processedSpan)
    (fuel : Nat) :
    ∀ (l vs : List Nat) (j : Nat) (sj : processedSpan),
    downVisits children base fuel l = some vs → j ∈ l → base[j]? = some sj →
    j ∈ vs := by
  intro l
  induction l with
  | nil => intro vs j sj h hj _; exact absurd hj (by simp)
  | cons i rest ihl =>
    intro vs j sj h hj hsj
    rcases List.mem_cons.mp hj with rfl | hjr
    · cases fuel with
      | zero =>
        rw [downVisits_cons_zero children rest hsj] at h
        exact absurd h (by simp)
      | succ f =>
        rw [downVisits_cons_succ children f rest hsj] at h
        cases hd : downVisits children base f (children sj.SpanID) with
        | none => rw [hd] at h; exact absurd h (by simp)
        | some d =>
          rw [hd] at h
          cases hr : downVisits children base (f + 1) rest with
          | none => rw [hr] at h; exact absurd h (by simp)
          | some r =>
            rw [hr] at h
            obtain rfl := (Option.some.inj h).symm
            exact List.mem_cons_self j (d ++ r)
    · cases hi : base[i]? with
      | none =>
        rw [downVisits_cons_invalid children fuel rest hi] at h
        exact ihl vs j sj h hjr hsj
      | some c =>
        cases fuel with
        | zero =>
          rw [downVisits_cons_zero children rest hi] at h
          exact absurd h (by simp)
        | succ f =>
          rw [downVisits_cons_succ children f rest hi] at h
          cases hd : downVisits children base f (children c.SpanID) with
          | none => rw [hd] at h; exact absurd h (by simp)
          | some d =>
            rw [hd] at h
            cases hr : downVisits children base (f + 1) rest with
            | none => rw [hr] at h; exact absurd h (by simp)
            | some r =>
              rw [hr] at h
              obtain rfl := (Option.some.inj h).symm
              exact List.mem_cons_of_mem i
                (List.mem_append.mpr (Or.inr (ihl r j sj hr hjr hsj)))

theorem downVisits_extract (children : Nat → List Nat) (base : List processedSpan) :
    ∀ (fuel : Nat) (l vs : List Nat) (j : Nat),
    downVisits children base fuel l = some vs → j ∈ vs →
    ∃ (sj : processedSpan) (f2 : Nat) (vsj : List Nat),
      base[j]? = some sj ∧ f2 < fuel ∧
      downVisits children base f2 (children sj.SpanID) = some vsj ∧
      (j :: vsj).Sublist vs := by
  intro fuel
  induction fuel using Nat.strong_induction_on with
  | _ fuel ihf =>
    intro l
    induction l with
    | nil =>
      intro vs j h hj
      rw [downVisits_nil] at h
      obtain rfl := (Option.some.inj h).symm
      exact absurd hj (by simp)
    | cons i rest ihl =>
      intro vs j h hj
      cases hi : base[i]? with
      | none =>
        rw [downVisits_cons_invalid children fuel rest hi] at h
        exact ihl vs j h hj
      | some c =>
        cases fuel with
        | zero =>
          rw [downVisits_cons_zero children rest hi] at h
          exact absurd h (by simp)
        | succ f =>
          rw [downVisits_cons_succ children f rest hi] at h
          cases hd : downVisits children base f (children c.SpanID) with
          | none => rw [hd] at h; exact absurd h (by simp)
          | some d =>
            rw [hd] at h
            cases hr : downVisits children base (f + 1) rest with
            | none => rw [hr] at h; exact absurd h (by simp)
            | some r =>
              rw [hr] at h
              obtain rfl := (Option.some.inj h).symm
              rcases List.mem_cons.mp hj with rfl | hj2
              · exact ⟨c, f, d, hi, Nat.lt_succ_self f, hd,
                  List.Sublist.cons₂ j (List.sublist_append_left d r)⟩
              · rcases List.mem_append.mp hj2 with hjd | hjr
                · obtain ⟨sj, f2, vsj, hsj, hf2, hw, hsub⟩ :=
                    ihf f (Nat.lt_succ_self f) (children c.SpanID) d j hd hjd
                  exact ⟨sj, f2, vsj, hsj, by omega, hw,
                    (hsub.trans (List.sublist_append_left d r)).trans
                      (List.sublist_cons_self i (d ++ r))⟩
                · obtain ⟨sj, f2, vsj, hsj, hf2, hw, hsub⟩ := ihl r j hr hjr
                  exact ⟨sj, f2, vsj, hsj, hf2, hw,
                    (hsub.trans (List.sublist_append_right d r)).trans
                      (List.sublist_cons_self i (d ++ r))⟩

theorem downVisits_noself {children : Nat → List Nat} {base : List processedSpan}
    {f : Nat} {j : Nat} {sj : processedSpan} {vsj : List Nat}
    (hsj : base[j]? = some sj)
    (h : downVisits children base f (children sj.SpanID) = some vsj) : j ∉ vsj := by
  intro hmem
  obtain ⟨sj2, f2, vsj2, hsj2, hf2, hw, hsub⟩ :=
    downVisits_extract children base f (children sj.SpanID) vsj j h hmem
  rw [hsj] at hsj2
  obtain rfl := Option.some.inj hsj2
  obtain rfl : vsj2 = vsj := downVisits_det (Nat.le_of_lt hf2) hw h
  have hlen := hsub.length_le
  simp at hlen

theorem downVisits_reach {ps : List processedSpan} :
    ∀ (fuel : Nat) (l vs : List Nat) (j : Nat),
    downVisits (childrenIdxs ps) ps fuel l = some vs → j ∈ vs →
    ∃ x ∈ l, x = j ∨ Relation.TransGen (childIdxRel ps) x j := by
  intro fuel
  induction fuel using Nat.strong_induction_on with
  | _ fuel ihf =>
    intro l
    induction l with
    | nil =>
      intro vs j h hj
      rw [downVisits_nil] at h
      obtain rfl := (Option.some.inj h).symm
      exact absurd hj (by simp)
    | cons i rest ihl =>
      intro vs j h hj
      cases hi : ps[i]? with
      | none =>
        rw [downVisits_cons_invalid (childrenIdxs ps) fuel rest hi] at h
        obtain ⟨x, hx, hxj⟩ := ihl vs j h hj
        exact ⟨x, List.mem_cons_of_mem i hx, hxj⟩
      | some c =>
        cases fuel with
        | zero =>
          rw [downVisits_cons_zero (childrenIdxs ps) rest hi] at h
          exact absurd h (by simp)
        | succ f =>
          rw [downVisits_cons_succ (childrenIdxs ps) f rest hi] at h
          cases hd : downVisits (childrenIdxs ps) ps f (childrenIdxs ps c.SpanID) with
          | none => rw [hd] at h; exact absurd h (by simp)
          | some d =>
            rw [hd] at h
            cases hr : downVisits (childrenIdxs ps) ps (f + 1) rest with
            | none => rw [hr] at h; exact absurd h (by simp)
            | some r =>
              rw [hr] at h
              obtain rfl := (Option.some.inj h).symm
              rcases List.mem_cons.mp hj with rfl | hj2
              · exact ⟨j, List.mem_cons_self j rest, Or.inl rfl⟩
              · rcases List.mem_append.mp hj2 with hjd | hjr
                · obtain ⟨z, hz, hzj⟩ :=
                    ihf f (Nat.lt_succ_self f) (childrenIdxs ps c.SpanID) d j hd hjd
                  obtain ⟨sz, hsz, hpar⟩ := childrenIdxs_mem.mp hz
                  have hrel : childIdxRel ps i z := ⟨c, sz, hi, hsz, hpar⟩
                  refine ⟨i, List.mem_cons_self i rest, Or.inr ?_⟩
                  rcases hzj with rfl | htg
                  · exact Relation.TransGen.single hrel
                  · exact Relation.TransGen.head hrel htg
                · obtain ⟨x, hx, hxj⟩ := ihl r j hr hjr
                  exact ⟨x, List.mem_cons_of_mem i hx, hxj⟩

theorem downVisits_desc_of {ps : List processedSpan} {F : Nat} {sid : Nat}
    {w : List Nat} {i : Nat} {c : processedSpan}
    (hw : downVisits (childrenIdxs ps) ps F (childrenIdxs ps sid) = some w)
    (hi : ps[i]? = some c) (hcid : c.SpanID = sid) :
    ∀ y ∈ w, Relation.TransGen (childIdxRel ps) i y := by
  intro y hy
  obtain ⟨z, hz, hzy⟩ := downVisits_reach F (childrenIdxs ps sid) w y hw hy
  obtain ⟨sz, hsz, hpar⟩ := childrenIdxs_mem.mp hz
  have hrel : childIdxRel ps i z := ⟨c, sz, hi, hsz, by rw [hpar, hcid]⟩
  rcases hzy with rfl | htg
  · exact Relation.TransGen.single hrel
  · exact Relation.TransGen.head hrel htg

theorem downVisits_descendants {ps : List processedSpan} {fuel : Nat} {sid : Nat}
    {vs : List Nat} {i : Nat} {s : processedSpan}
    (hvs : downVisits (childrenIdxs ps) ps fuel (childrenIdxs ps sid) = some vs)
    (hs : ps[i]? = some s) (hsid : s.SpanID = sid) :
    ∀ k, Relation.TransGen (childIdxRel ps) i k → k ∈ vs := by
  intro k htg
  induction htg with
  | single hr =>
    rename_i k0
    obtain ⟨si, sk, hsi, hsk, hpar⟩ := hr
    rw [hs] at hsi
    obtain rfl := Option.some.inj hsi
    have hmem : k0 ∈ childrenIdxs ps sid := childrenIdxs_mem.mpr ⟨sk, hsk, by
      rw [hpar, hsid]⟩
    exact downVisits_mem_of (childrenIdxs ps) ps fuel (childrenIdxs ps sid) vs
      k0 sk hvs hmem hsk
  | tail htg2 hr ih =>
    rename_i m k0
    obtain ⟨sm, sk, hsm, hsk, hpar⟩ := hr
    obtain ⟨sm2, f2, vsm, hsm2, hf2, hwm, hsub⟩ :=
      downVisits_extract (childrenIdxs ps) ps fuel (childrenIdxs ps sid) vs m hvs ih
    rw [hsm] at hsm2
    obtain rfl := Option.some.inj hsm2
    have hmem : k0 ∈ childrenIdxs ps sm.SpanID := childrenIdxs_mem.mpr ⟨sk, hsk, hpar⟩
    have hkm : k0 ∈ vsm := downVisits_mem_of (childrenIdxs ps) ps f2
      (childrenIdxs ps sm.SpanID) vsm k0 sk hwm hmem hsk
    exact hsub.subset (List.mem_cons_of_mem m hkm)

theorem downVisits_visited_not_self {ps : List processedSpan} {fuel : Nat}
    {l vs : List Nat} {j : Nat}
    (hvs : downVisits (childrenIdxs ps) ps fuel l = some vs) (hj : j ∈ vs) :
    ¬ Relation.TransGen (childIdxRel ps) j j := by
  intro htg
  obtain ⟨sj, f2, vsj, hsj, hf2, hw, hsub⟩ :=
    downVisits_extract (childrenIdxs ps) ps fuel l vs j hvs hj
  exact downVisits_noself hsj hw
    (downVisits_descendants hw hsj rfl j htg)

theorem childIdxRel_pred_unique {ps : List processedSpan}
    (hids : (ps.map processedSpan.SpanID).Nodup) {a b y : Nat}
    (ha : childIdxRel ps a y) (hb : childIdxRel ps b y) : a = b := by
  obtain ⟨sa, sy, hsa, hsy, hpa⟩ := ha
  obtain ⟨sb, sy2, hsb, hsy2, hpb⟩ := hb
  rw [hsy] at hsy2
  obtain rfl := Option.some.inj hsy2
  exact spanId_idx_inj hids hsa hsb (by rw [← hpa, ← hpb])

theorem childIdxRel_comparable {ps : List processedSpan}
    (hids : (ps.map processedSpan.SpanID).Nodup) {a c : Nat}
    (h1 : Relation.ReflTransGen (childIdxRel ps) a c) :
    ∀ b, Relation.ReflTransGen (childIdxRel ps) b c →
    Relation.ReflTransGen (childIdxRel ps) a b ∨
      Relation.ReflTransGen (childIdxRel ps) b a := by
  induction h1 with
  | refl => intro b h2; exact Or.inr h2
  | tail h1m hmc ih =>
    intro b h2
    rcases Relation.reflTransGen_iff_eq_or_transGen.mp h2 with rfl | htg
    · exact Or.inl (h1m.tail hmc)
    · obtain ⟨w, hbw, hwc⟩ := Relation.TransGen.tail'_iff.mp htg
      obtain rfl := childIdxRel_pred_unique hids hwc hmc
      exact ih b hbw

theorem childrenIdxs_pairwise_not_desc {ps : List processedSpan}
    (hids : (ps.map processedSpan.SpanID).Nodup)
    {i : Nat} {c : processedSpan} (hi : ps[i]? = some c)
    {F : Nat} {w : List Nat}
    (hw : downVisits (childrenIdxs ps) ps F (childrenIdxs ps c.SpanID) = some w) :
    ∀ x ∈ childrenIdxs ps c.SpanID, ∀ y ∈ childrenIdxs ps c.SpanID, x ≠ y →
    ¬ Relation.TransGen (childIdxRel ps) x y := by
  intro x hx y hy hne htg
  obtain ⟨sy, hsy, hpy⟩ := childrenIdxs_mem.mp hy
  obtain ⟨sx, hsx, hpx⟩ := childrenIdxs_mem.mp hx
  obtain ⟨wmid, hxw, hwy⟩ := Relation.TransGen.tail'_iff.mp htg
  obtain ⟨sw, sy2, hsw, hsy2, hp⟩ := hwy
  rw [hsy] at hsy2
  obtain rfl := Option.some.inj hsy2
  obtain rfl : wmid = i := spanId_idx_inj hids hsw hi (by rw [← hp, hpy])
  have hxvs : x ∈ w := downVisits_mem_of (childrenIdxs ps) ps F
    (childrenIdxs ps c.SpanID) w x sx hw hx hsx
  rcases Relation.reflTransGen_iff_eq_or_transGen.mp hxw with rfl | htgxi
  · exact downVisits_visited_not_self hw hxvs
      (Relation.TransGen.single ⟨c, sx, hi, hsx, hpx⟩)
  · exact downVisits_visited_not_self hw hxvs
      (htgxi.tail ⟨c, sx, hi, hsx, hpx⟩)

theorem downVisits_nodup {ps : List processedSpan}
    (hids : (ps.map processedSpan.SpanID).Nodup) :
    ∀ (fuel : Nat) (l vs : List Nat),
    downVisits (childrenIdxs ps) ps fuel l = some vs →
    l.Nodup →
    (∀ x ∈ l, ∀ y ∈ l, x ≠ y → ¬ Relation.TransGen (childIdxRel ps) x y) →
    vs.Nodup := by
  intro fuel
  induction fuel using Nat.strong_induction_on with
  | _ fuel ihf =>
    intro l
    induction l with
    | nil =>
      intro vs h _ _
      rw [downVisits_nil] at h
      obtain rfl := (Option.some.inj h).symm
      exact List.nodup_nil
    | cons i rest ihl =>
      intro vs h hnd hpair
      have hinr : i ∉ rest := (List.nodup_cons.mp hnd).1
      have hndr : rest.Nodup := (List.nodup_cons.mp hnd).2
      have hpairr : ∀ x ∈ rest, ∀ y ∈ rest, x ≠ y →
          ¬ Relation.TransGen (childIdxRel ps) x y := fun x hx y hy =>
        hpair x (List.mem_cons_of_mem i hx) y (List.mem_cons_of_mem i hy)
      cases hi : ps[i]? with
      | none =>
        rw [downVisits_cons_invalid (childrenIdxs ps) fuel rest hi] at h
        exact ihl vs h hndr hpairr
      | some c =>
        cases fuel with
        | zero =>
          rw [downVisits_cons_zero (childrenIdxs ps) rest hi] at h
          exact absurd h (by simp)
        | succ f =>
          rw [downVisits_cons_succ (childrenIdxs ps) f rest hi] at h
          cases hd : downVisits (childrenIdxs ps) ps f (childrenIdxs ps c.SpanID) with
          | none => rw [hd] at h; exact absurd h (by simp)
          | some d =>
            rw [hd] at h
            cases hr : downVisits (childrenIdxs ps) ps (f + 1) rest with
            | none => rw [hr] at h; exact absurd h (by simp)
            | some r =>
              rw [hr] at h
              obtain rfl := (Option.some.inj h).symm
              have hdesc : ∀ y ∈ d, Relation.TransGen (childIdxRel ps) i y :=
                downVisits_desc_of hd hi rfl
              have hinotd : i ∉ d := fun hmem =>
                downVisits_visited_not_self hd hmem (hdesc i hmem)
              have hinotr : i ∉ r := by
                intro hmem
                obtain ⟨x, hx, hxi⟩ := downVisits_reach (f + 1) rest r i hr hmem
                rcases hxi with rfl | htg
                · exact hinr hx
                · have hxne : x ≠ i := fun he => hinr (he ▸ hx)
                  exact hpair x (List.mem_cons_of_mem i hx) i
                    (List.mem_cons_self i rest) hxne htg
              have hdisj : ∀ a ∈ d, a ∉ r := by
                intro a had har
                have htgia : Relation.TransGen (childIdxRel ps) i a := hdesc a had
                obtain ⟨x, hx, hxa⟩ := downVisits_reach (f + 1) rest r a hr har
                have hiir : i ∈ i :: rest := List.mem_cons_self i rest
                have hxir : x ∈ i :: rest := List.mem_cons_of_mem i hx
                have hex : i ≠ x := fun he => hinr (he ▸ hx)
                rcases hxa with rfl | htgxa
                · exact hpair i hiir x hxir hex htgia
                · obtain ⟨w1, hxw1, hw1a⟩ := Relation.TransGen.tail'_iff.mp htgxa
                  obtain ⟨w2, hiw2, hw2a⟩ := Relation.TransGen.tail'_iff.mp htgia
                  obtain rfl := childIdxRel_pred_unique hids hw1a hw2a
                  rcases childIdxRel_comparable hids hiw2 x hxw1 with hix | hxi2
                  · rcases Relation.reflTransGen_iff_eq_or_transGen.mp hix with heq | htg2
                    · exact hex heq.symm
                    · exact hpair i hiir x hxir hex htg2
                  · rcases Relation.reflTransGen_iff_eq_or_transGen.mp hxi2 with heq | htg2
                    · exact hex heq
                    · exact hpair x hxir i hiir (Ne.symm hex) htg2
              have hdnd : d.Nodup := ihf f (Nat.lt_succ_self f)
                (childrenIdxs ps c.SpanID) d hd (childrenIdxs_nodup ps c.SpanID)
                (childrenIdxs_pairwise_not_desc hids hi hd)
              have hrnd : r.Nodup := ihl r hr hndr hpairr
              refine List.nodup_cons.mpr ⟨?_, ?_⟩
              · intro hmem
                rcases List.mem_append.mp hmem with h1 | h2
                · exact hinotd h1
                · exact hinotr h2
              · exact List.Nodup.append hdnd hrnd (fun a ha hb => hdisj a ha hb)

theorem downSpanTags_visits_some {children : Nat → List Nat} {f : Nat}
    {sp : processedSpan} :
    ∀ {ts : List ProcessedTag} {arr arr' : List processedSpan},
    downSpanTags children (f + 1) sp ts arr = some arr' →
    ∀ t ∈ ts, (t.Inherit && !t.Inherited) = true →
    ∃ vs, downVisits children arr f (children sp.SpanID) = some vs := by
  intro ts
  induction ts with
  | nil => intro arr arr' h t ht _; exact absurd ht (by simp)
  | cons t0 rest ih =>
    intro arr arr' h t ht helig
    rw [show downSpanTags children (f + 1) sp (t0 :: rest) arr =
        if !t0.Inherit || t0.Inherited then downSpanTags children (f + 1) sp rest arr
        else match propagateInheritTagDownwards children (f + 1) t0 sp arr with
          | none => none
          | some arr2 => downSpanTags children (f + 1) sp rest arr2 from rfl] at h
    by_cases hc : (!t0.Inherit || t0.Inherited) = true
    · rw [if_pos hc] at h
      rcases List.mem_cons.mp ht with rfl | hmem
      · exfalso
        cases hp : t.Inherit <;> cases hq : t.Inherited <;> simp_all
      · exact ih h t hmem helig
    · rw [if_neg hc] at h
      cases hp : propagateInheritTagDownwards children (f + 1) t0 sp arr with
      | none => rw [hp] at h; exact absurd h (by simp)
      | some arr1 =>
        have hp2 : downStep children f (downCopy t0) (children sp.SpanID) arr =
            some arr1 := hp
        obtain ⟨vs, hvs, -⟩ := downStep_char children f (children sp.SpanID)
          (downCopy t0) arr arr1 (downCopy_idem t0) hp2
        exact ⟨vs, hvs⟩

theorem downwardPassFrom_visits_some (children : Nat → List Nat) (f : Nat) :
    ∀ (steps i : Nat) (arr arr' : List processedSpan),
    downwardPassFrom children (f + 1) i steps arr = some arr' →
    ∀ i2, i ≤ i2 → i2 < i + steps → ∀ s, arr[i2]? = some s →
    ∀ t ∈ s.Tags, (t.Inherit && !t.Inherited) = true →
    ∃ vs, downVisits children arr f (children s.SpanID) = some vs := by
  intro steps
  induction steps with
  | zero => intro i arr arr' h i2 h1 h2; omega
  | succ steps ih =>
    intro i arr arr' h i2 h1 h2 s hs t ht helig
    rw [show downwardPassFrom children (f + 1) i (steps + 1) arr =
        match arr[i]? with
        | none => some arr
        | some s0 =>
          match downSpanTags children (f + 1) s0 s0.Tags arr with
          | none => none
          | some arr2 => downwardPassFrom children (f + 1) (i + 1) steps arr2
        from rfl] at h
    cases hi : arr[i]? with
    | none =>
      exfalso
      have hnone : arr[i2]? = none := getElem?_eq_none_of_le hi h1
      rw [hnone] at hs
      exact absurd hs (by simp)
    | some s0 =>
      rw [hi] at h
      have h2d : (match downSpanTags children (f + 1) s0 s0.Tags arr with
          | none => none
          | some arr2 => downwardPassFrom children (f + 1) (i + 1) steps arr2) =
          some arr' := h
      cases hu : downSpanTags children (f + 1) s0 s0.Tags arr with
      | none => rw [hu] at h2d; exact absurd h2d (by simp)
      | some arr1 =>
        rw [hu] at h2d
        have h3 : downwardPassFrom children (f + 1) (i + 1) steps arr1 = some arr' := h2d
        by_cases hii : i2 = i
        · subst hii
          rw [hi] at hs
          obtain rfl := Option.some.inj hs
          exact downSpanTags_visits_some hu t ht helig
        · have hle : i + 1 ≤ i2 := by omega
          have hchar := downSpanTags_char children (f + 1) s0 s0.Tags arr arr1 hu i2
          rw [hs] at hchar
          obtain ⟨vs, hvs⟩ := ih (i + 1) arr1 arr' h3 i2 hle (by omega) _ hchar t
            (List.mem_append.mpr (Or.inl ht)) helig
          refine ⟨vs, ?_⟩
          rw [← downVisits_ext (downSpanTags_extends hu) children f]
          exact hvs

theorem copiesForDown_mem_of {ts : List ProcessedTag} {t : ProcessedTag} {n : Nat}
    (ht : t ∈ ts) (hn : 1 ≤ n) : downCopy t ∈ copiesForDown ts n := by
  induction ts with
  | nil => exact absurd ht (by simp)
  | cons t0 rest ih =>
    rcases List.mem_cons.mp ht with rfl | hmem
    · exact List.mem_append.mpr (Or.inl (List.mem_replicate.mpr ⟨by omega, rfl⟩))
    · exact List.mem_append.mpr (Or.inr (ih hmem))

theorem downContribFrom_mem_of {children : Nat → List Nat} {base : List processedSpan}
    {fuel : Nat} :
    ∀ (steps i0 : Nat) {i j : Nat} {s : processedSpan} {t : ProcessedTag},
    i0 ≤ i → i < i0 + steps → base[i]? = some s →
    t ∈ eligDownTags s.Tags → 1 ≤ dvCount children base fuel s.SpanID j →
    downCopy t ∈ downContribFrom children base fuel i0 steps j := by
  intro steps
  induction steps with
  | zero => intro i0 i j s t h1 h2; omega
  | succ steps ih =>
    intro i0 i j s t h1 h2 hs ht hn
    simp only [downContribFrom]
    by_cases hii : i = i0
    · subst hii
      rw [hs]
      exact List.mem_append.mpr (Or.inl (copiesForDown_mem_of ht hn))
    · exact List.mem_append.mpr (Or.inr (ih (i0 + 1) (by omega) (by omega) hs ht hn))

theorem ProcessSnapshot_passes {snap : SpansSnapshot} {out : ProcessedSnapshot}
    (h : ProcessSnapshot snap = some out) :
    ∃ (ps arr1 arr2 : List processedSpan),
      processSpans (flattenTraces snap.Traces) snap = some ps ∧
      upwardPass (mkSpansMap ps) (ps.length + 1) ps = some arr1 ∧
      downwardPass (childrenIdxs ps) (ps.length + 1) arr1 = some arr2 := by
  unfold ProcessSnapshot at h
  have h0 : (match processSpans (flattenTraces snap.Traces) snap with
      | none => none
      | some ps =>
        match upwardPass (mkSpansMap ps) (ps.length + 1) ps with
        | none => none
        | some arr1 =>
          match downwardPass (childrenIdxs ps) (ps.length + 1) arr1 with
          | none => none
          | some arr2 =>
            some { Spans := arr2,
                   Stacks := addMissingStacks snap.Stacks (flattenTraces snap.Traces) }) =
      some out := h
  cases hps : processSpans (flattenTraces snap.Traces) snap with
  | none => rw [hps] at h0; exact absurd h0 (by simp)
  | some ps =>
    rw [hps] at h0
    have h1 : (match upwardPass (mkSpansMap ps) (ps.length + 1) ps with
        | none => none
        | some arr1 =>
          match downwardPass (childrenIdxs ps) (ps.length + 1) arr1 with
          | none => none
          | some arr2 =>
            some { Spans := arr2,
                   Stacks := addMissingStacks snap.Stacks (flattenTraces snap.Traces) }) =
        some out := h0
    cases hup : upwardPass (mkSpansMap ps) (ps.length + 1) ps with
    | none => rw [hup] at h1; exact absurd h1 (by simp)
    | some arr1 =>
      rw [hup] at h1
      have h2 : (match downwardPass (childrenIdxs ps) (ps.length + 1) arr1 with
          | none => none
          | some arr2 =>
            some { Spans := arr2,
                   Stacks := addMissingStacks snap.Stacks (flattenTraces snap.Traces) }) =
          some out := h1
      cases hdn : downwardPass (childrenIdxs ps) (ps.length + 1) arr1 with
      | none => rw [hdn] at h2; exact absurd h2 (by simp)
      | some arr2 => exact ⟨ps, arr1, arr2, rfl, hup, hdn⟩

/-- C7: downward completeness. For a successful run, with `ps` the enriched
span table: (a) every output span's tags decompose as its enriched tags, the
upward contributions, then exactly the downward contributions (one copy
`downCopy t` per originating span `i` whose downward walk visits `j`, per
eligible original tag `t` of `i`); (b) the tags marked `Inherited` in the
output are exactly those downward contributions; (c) for every span `i` with
an original tag `t` with `Inherit` set and `Inherited` clear, the recursive
walk over the child index from `i` terminates with visit list `vs`, `vs`
covers every transitive descendant of `i`, every visited span's output
carries the copy `downCopy t` (which has `Inherited = true`,
`PropagateUp = false`, `Hidden = true`), and — when the span ids are unique —
`vs` has no duplicates, so no descendant receives two copies of `t` from this
walk. -/
theorem C7_downward_completeness :
    ∀ (snap : SpansSnapshot) (out : ProcessedSnapshot) (ps : List processedSpan),
    ProcessSnapshot snap = some out →
    processSpans (flattenTraces snap.Traces) snap = some ps →
    ((∀ j, out.Spans[j]? = (ps[j]?).map (fun s : processedSpan =>
        { s with Tags := s.Tags
            ++ upContribFrom (mkSpansMap ps) ps (ps.length + 1) 0 ps.length j
            ++ downContribFrom (childrenIdxs ps) ps (ps.length + 1) 0 ps.length j })) ∧
     (∀ (j : Nat) (sj : processedSpan), out.Spans[j]? = some sj →
        sj.Tags.filter (fun t => t.Inherited) =
          downContribFrom (childrenIdxs ps) ps (ps.length + 1) 0 ps.length j) ∧
     (∀ (i : Nat) (s : processedSpan), ps[i]? = some s →
      ∀ t ∈ s.Tags, t.Inherit = true → t.Inherited = false →
      ∃ vs, downVisits (childrenIdxs ps) ps ps.length
          (childrenIdxs ps s.SpanID) = some vs ∧
        (∀ k, Relation.TransGen (childIdxRel ps) i k → k ∈ vs) ∧
        (∀ j ∈ vs, ∀ sj, out.Spans[j]? = some sj → downCopy t ∈ sj.Tags) ∧
        ((ps.map processedSpan.SpanID).Nodup →
          vs.Nodup ∧ ∀ j, vs.count j ≤ 1))) := by
  intro snap out ps h hps
  obtain ⟨ps2, hps2, hlen, hstk, hupne, hchar⟩ := ProcessSnapshot_char h
  rw [hps] at hps2
  obtain rfl := Option.some.inj hps2
  obtain ⟨ps3, arr1, arr2, hps3, hup, hdn⟩ := ProcessSnapshot_passes h
  rw [hps] at hps3
  obtain rfl := Option.some.inj hps3
  refine ⟨hchar, ?_, ?_⟩
  · intro j sj hsj
    rw [hchar j, Option.map_eq_some'] at hsj
    obtain ⟨s, hs, rfl⟩ := hsj
    show (s.Tags ++ upContribFrom (mkSpansMap ps) ps (ps.length + 1) 0 ps.length j
        ++ downContribFrom (childrenIdxs ps) ps (ps.length + 1) 0 ps.length j).filter
        (fun t => t.Inherited) = _
    rw [List.filter_append, List.filter_append]
    rw [filter_eq_nil_of_flags (fun t ht => (ps_tags_flags hps j s hs t ht).2)]
    rw [filter_eq_nil_of_flags (fun t ht => by
      obtain ⟨i2, s2, t0, hs2, ht0, rfl⟩ := mem_upContribFrom_src ht
      show t0.Inherited = false
      exact (ps_tags_flags hps i2 s2 hs2 t0 ht0).2)]
    rw [filter_eq_self_of_flags (fun t ht => downContribFrom_mem ht)]
    rw [List.nil_append, List.nil_append]
  · intro i s hs t ht hin hnin
    have hel : (t.Inherit && !t.Inherited) = true := by rw [hin, hnin]; rfl
    have hrange : i < ps.length := by
      by_contra hge
      rw [List.getElem?_eq_none (by omega)] at hs
      exact absurd hs (by simp)
    have hs1 : arr1[i]? = some { s with Tags := (s.Tags
        ++ upContribFrom (mkSpansMap ps) ps (ps.length + 1) 0 ps.length i) } := by
      rw [upwardPass_char hup i, hs]
      rfl
    have hlen1 : arr1.length = ps.length := tagsExtendP_length (upwardPass_extendsUp hup)
    have hdn2 : downwardPassFrom (childrenIdxs ps) (ps.length + 1) 0 arr1.length arr1 =
        some arr2 := hdn
    obtain ⟨vs, hvs1⟩ := downwardPassFrom_visits_some (childrenIdxs ps) ps.length
      arr1.length 0 arr1 arr2 hdn2 i (by omega) (by omega) _ hs1 t
      (List.mem_append.mpr (Or.inl ht)) hel
    have hvs : downVisits (childrenIdxs ps) ps ps.length
        (childrenIdxs ps s.SpanID) = some vs := by
      rw [← downVisits_ext (upwardPass_extendsUp hup) (childrenIdxs ps) ps.length]
      exact hvs1
    refine ⟨vs, hvs, downVisits_descendants hvs hs rfl, ?_, ?_⟩
    · intro j hj sj hsj
      rw [hchar j, Option.map_eq_some'] at hsj
      obtain ⟨sj0, hsj0, rfl⟩ := hsj
      show downCopy t ∈ sj0.Tags
        ++ upContribFrom (mkSpansMap ps) ps (ps.length + 1) 0 ps.length j
        ++ downContribFrom (childrenIdxs ps) ps (ps.length + 1) 0 ps.length j
      refine List.mem_append.mpr (Or.inr ?_)
      apply downContribFrom_mem_of ps.length 0 (by omega) (by omega) hs
        (List.mem_filter.mpr ⟨ht, hel⟩)
      show 1 ≤ (match downVisits (childrenIdxs ps) ps ps.length
          (childrenIdxs ps s.SpanID) with
        | none => 0
        | some vs2 => vs2.count j)
      rw [hvs]
      exact List.count_pos_iff.mpr hj
    · intro hids
      have hnd : vs.Nodup := downVisits_nodup hids ps.length
        (childrenIdxs ps s.SpanID) vs hvs (childrenIdxs_nodup ps s.SpanID)
        (childrenIdxs_pairwise_not_desc hids hs hvs)
      exact ⟨hnd, fun j => List.nodup_iff_count_le_one.mp hnd j⟩

/-- Witness for C7 at the concrete snapshot `snapFanOut`. -/
theorem C7_downward_completeness_witness :
    (∀ j, outFanOut.Spans[j]? = (psFanOut[j]?).map (fun s : processedSpan =>
        { s with Tags := (s.Tags
            ++ upContribFrom (mkSpansMap psFanOut) psFanOut (psFanOut.length + 1)
                0 psFanOut.length j
            ++ downContribFrom (childrenIdxs psFanOut) psFanOut (psFanOut.length + 1)
                0 psFanOut.length j) })) ∧
    (∀ (j : Nat) (sj : processedSpan), outFanOut.Spans[j]? = some sj →
        sj.Tags.filter (fun t => t.Inherited) =
          downContribFrom (childrenIdxs psFanOut) psFanOut (psFanOut.length + 1)
            0 psFanOut.length j) ∧
    (∀ (i : Nat) (s : processedSpan), psFanOut[i]? = some s →
      ∀ t ∈ s.Tags, t.Inherit = true → t.Inherited = false →
      ∃ vs, downVisits (childrenIdxs psFanOut) psFanOut psFanOut.length
          (childrenIdxs psFanOut s.SpanID) = some vs ∧
        (∀ k, Relation.TransGen (childIdxRel psFanOut) i k → k ∈ vs) ∧
        (∀ j ∈ vs, ∀ sj, outFanOut.Spans[j]? = some sj → downCopy t ∈ sj.Tags) ∧
        ((psFanOut.map processedSpan.SpanID).Nodup →
          vs.Nodup ∧ ∀ j, vs.count j ≤ 1)) :=
  C7_downward_completeness snapFanOut outFanOut psFanOut (by rfl) (by rfl)
